import Mathlib

/-!
# Delta-Image-Archive: a verification of `encode.py`

This file shallowly embeds the core of the delta-image encoder
(`src/encode.py`) in Lean and proves the specified properties about it.

The program converts a directory of frames into an archive holding a few
"root" frames verbatim and every other frame as a transparency-masked diff
against a chosen parent.  The embedding covers:

* the pixel-level diff encoder `process_image` (RGB difference, luminance
  collapse, binary alpha mask, source-over reconstruction);
* the pairwise similarity scorer `calculate_similarity_score`;
* the path-compressed `DisjointSetUnion` structure;
* the greedy maximum-spanning-forest construction over descending scores;
* the per-component root selection and breadth-first dependency builder;
* the two-phase pipeline orchestration (aggregation of scores, root
  copying, diff jobs, archive membership).

Machine bytes are modelled as `Nat` (all arithmetic here stays below 2^8 or
2^32, and the Python integers are unbounded anyway); fallible operations
are modelled with `Option`; the thread pools deliver results in an
arbitrary order, modelled by quantifying over the aggregation order.
-/

namespace DeltaImage

/-! ## Pixels and images -/

/-- An RGB pixel: three byte channel values. -/
abbrev RGB : Type := Nat × Nat × Nat

/-- An RGBA pixel: an RGB colour and an alpha byte. -/
abbrev RGBA : Type := RGB × Nat

/-- A `w × h` raster of pixels drawn from `α`. -/
abbrev Img (α : Type) (w h : Nat) : Type := Fin w → Fin h → α

/-- Absolute difference of two channel bytes: the per-channel operation of
`ImageChops.difference`. -/
def byteDiff (a b : Nat) : Nat := max a b - min a b

/-- Per-channel absolute difference of two RGB pixels
(`ImageChops.difference` on RGB images). -/
def rgbDiff (p q : RGB) : RGB :=
  (byteDiff p.1 q.1, byteDiff p.2.1 q.2.1, byteDiff p.2.2 q.2.2)

/-- Pillow's RGB→L conversion (`Image.convert('L')`): the ITU-R 601-2 luma
transform in the fixed-point form Pillow computes,
`(19595·R + 38470·G + 7471·B) >> 16`. -/
def lumaOf (p : RGB) : Nat :=
  (19595 * p.1 + 38470 * p.2.1 + 7471 * p.2.2) / 65536

/-- The mask byte of one pixel of `process_image`:
`diff.convert('L').point(lambda p: 255 if p > 0 else 0)`. -/
def maskPix (c b : RGB) : Nat :=
  if 0 < lumaOf (rgbDiff c b) then 255 else 0

/-- One output pixel of `process_image`: the child's colour with the mask
installed as alpha (`sanitized_image.putalpha(mask)`). -/
def processImagePix (c b : RGB) : RGBA := (c, maskPix c b)

/-- The diff encoder `process_image` on decoded same-shape RGB rasters:
child colours, alpha = binary mask of the luminance-collapsed difference
against the base (parent) raster. -/
def process_image (child base : Img RGB w h) : Img RGBA w h :=
  fun x y => processImagePix (child x y) (base x y)

/-- Source-over compositing of a binary-alpha image atop an RGB base:
an opaque pixel shows the top colour, a fully transparent pixel shows the
base.  This is the reconstruction step for a diff-encoded frame. -/
def compositeOver (top : Img RGBA w h) (base : Img RGB w h) : Img RGB w h :=
  fun x y => if (top x y).2 = 0 then base x y else (top x y).1

/-- The fallible run of `process_image`: decoding either input or writing
the destination may fail, which the function catches, reporting `false`
(`except Exception: ... return False`); a successful run writes the encoded
raster and reports `true`.  `none` models any raised exception. -/
def processImageRun (loaded : Option (Img RGB w h × Img RGB w h)) :
    Option (Img RGBA w h) :=
  loaded.map fun pr => process_image pr.1 pr.2

/-- The boolean outcome `process_image` reports to the orchestrator. -/
def processImageOk (loaded : Option (Img RGB w h × Img RGB w h)) : Bool :=
  (processImageRun loaded).isSome

/-! ## The similarity scorer -/

/-- `np.count_nonzero(diff_arr)` for the luminance-collapsed difference of
two same-shape RGB rasters. -/
def nonZeroPixels (i1 i2 : Img RGB w h) : Nat :=
  ((Finset.univ : Finset (Fin w × Fin h)).filter
    (fun q => lumaOf (rgbDiff (i1 q.1 q.2) (i2 q.1 q.2)) ≠ 0)).card

/-- The pixel count of a `w × h` raster (`diff_arr.shape[0] * diff_arr.shape[1]`). -/
def totalPixels (w h : Nat) : Nat := w * h

/-- The number of pixels whose collapsed difference is exactly zero. -/
def zeroPixels (i1 i2 : Img RGB w h) : Nat :=
  ((Finset.univ : Finset (Fin w × Fin h)).filter
    (fun q => lumaOf (rgbDiff (i1 q.1 q.2) (i2 q.1 q.2)) = 0)).card

/-- `calculate_similarity_score`: on a successfully loaded, normalized pair
it returns `total_pixels - non_zero_pixels`; any exception while loading or
comparing yields the sentinel `-1`.  `none` models the exceptional case. -/
def calculate_similarity_score (loaded : Option (Img RGB w h × Img RGB w h)) :
    Int :=
  match loaded with
  | none => -1
  | some (i1, i2) => (totalPixels w h : Int) - nonZeroPixels i1 i2

/-! ### Basic pixel lemmas -/

theorem byteDiff_self (a : Nat) : byteDiff a a = 0 := by
  simp [byteDiff]

theorem byteDiff_eq_zero_iff {a b : Nat} : byteDiff a b = 0 ↔ a = b := by
  unfold byteDiff
  omega

theorem rgbDiff_self (p : RGB) : rgbDiff p p = (0, 0, 0) := by
  simp [rgbDiff, byteDiff_self]

theorem lumaOf_zero : lumaOf (0, 0, 0) = 0 := by
  simp [lumaOf]

theorem maskPix_self (p : RGB) : maskPix p p = 0 := by
  unfold maskPix
  rw [rgbDiff_self, lumaOf_zero]
  simp

theorem maskPix_eq_zero_or_255 (c b : RGB) :
    maskPix c b = 0 ∨ maskPix c b = 255 := by
  unfold maskPix
  by_cases h : 0 < lumaOf (rgbDiff c b) <;> simp [h]

theorem zeroPixels_add_nonZeroPixels (i1 i2 : Img RGB w h) :
    zeroPixels i1 i2 + nonZeroPixels i1 i2 = totalPixels w h := by
  classical
  unfold zeroPixels nonZeroPixels totalPixels
  have h := Finset.filter_card_add_filter_neg_card_eq_card
    (s := (Finset.univ : Finset (Fin w × Fin h)))
    (p := fun q => lumaOf (rgbDiff (i1 q.1 q.2) (i2 q.1 q.2)) = 0)
  simpa [Finset.card_univ] using h

theorem nonZeroPixels_le_total (i1 i2 : Img RGB w h) :
    nonZeroPixels i1 i2 ≤ totalPixels w h := by
  have := zeroPixels_add_nonZeroPixels i1 i2
  omega

/-! ## The Disjoint Set Union structure

`DisjointSetUnion` keeps a parent map over the frame ids; `find` follows
parents to the representative, rewriting every visited entry to point at it
(path compression), and `union` attaches one representative under the
other.  Frame ids are modelled as `Fin n` and the parent dict as a total
map `Fin n → Fin n`. -/

/-- The state of a `DisjointSetUnion` over `n` items. -/
structure DSU (n : Nat) where
  parent : Fin n → Fin n

/-- `DisjointSetUnion.__init__`: every item starts as its own parent. -/
def DSU.init (n : Nat) : DSU n := ⟨fun x => x⟩

/-- The recursion of `find` with explicit fuel.  Python's `find` checks
`parent[item] == item`, recurses on `parent[item]`, then overwrites
`parent[item]` with the returned representative.  On a well-formed state
`n` units of fuel always suffice (`findAux_spec` below). -/
def findAux (n : Nat) : Nat → (Fin n → Fin n) → Fin n → (Fin n → Fin n) × Fin n
  | 0, p, x => (p, x)
  | fuel+1, p, x =>
    if p x = x then (p, x)
    else
      let r := findAux n fuel p (p x)
      (Function.update r.1 x r.2, r.2)

/-- `DisjointSetUnion.find`, returning the compressed state and the
representative. -/
def DSU.find (s : DSU n) (x : Fin n) : DSU n × Fin n :=
  let r := findAux n n s.parent x
  (⟨r.1⟩, r.2)

/-- `DisjointSetUnion.union`: find both representatives (compressing both
paths); if they differ, attach `item2`'s root under `item1`'s root and
report `true`, else report `false`. -/
def DSU.union (s : DSU n) (x y : Fin n) : DSU n × Bool :=
  let f1 := s.find x
  let f2 := f1.1.find y
  if f2.2 = f1.2 then (f2.1, false)
  else (⟨Function.update f2.1.parent f2.2 f1.2⟩, true)

/-- An item that is its own parent: a representative. -/
def isRoot (p : Fin n → Fin n) (x : Fin n) : Prop := p x = x

/-- The representative of `x`: follow the parent map `n` times.  On a
well-formed state this reaches the root of `x`'s chain. -/
def rootOf (p : Fin n → Fin n) (x : Fin n) : Fin n := p^[n] x

/-- Well-formedness of a parent map: from every item, `n` parent steps
reach a fixed point.  Equivalently (shown in `no_nontrivial_cycle`), the
parent map has no cycle besides self-loops at representatives. -/
def Wf (p : Fin n → Fin n) : Prop := ∀ x, p (p^[n] x) = p^[n] x

/-- A `find`/`union` call against the structure. -/
inductive DSUOp (n : Nat) where
  | doFind (x : Fin n)
  | doUnion (x y : Fin n)

/-- Run a sequence of operations against a `DSU` state, keeping the final
state. -/
def runOps (s : DSU n) : List (DSUOp n) → DSU n
  | [] => s
  | (DSUOp.doFind x) :: ops => runOps (s.find x).1 ops
  | (DSUOp.doUnion x y) :: ops => runOps (s.union x y).1 ops

/-! ### Chains in a well-formed parent map -/

variable {n : Nat} {p : Fin n → Fin n} {x y r r1 r2 : Fin n}

theorem Wf.hasChain (hp : Wf p) (x : Fin n) :
    ∃ k, p (p^[k] x) = p^[k] x := ⟨n, hp x⟩

/-- The length of the parent chain from `x` to its representative: the
least number of parent steps reaching a fixed point. -/
def chainLen (p : Fin n → Fin n) (x : Fin n) (h : ∃ k, p (p^[k] x) = p^[k] x) :
    Nat := Nat.find h

theorem isRoot_iterate_chainLen (h : ∃ k, p (p^[k] x) = p^[k] x) :
    isRoot p (p^[chainLen p x h] x) := Nat.find_spec h

theorem chainLen_le (hp : Wf p) (x : Fin n) :
    chainLen p x (hp.hasChain x) ≤ n :=
  Nat.find_le (hp x)

theorem rootOf_of_isRoot (h : isRoot p x) : rootOf p x = x :=
  Function.iterate_fixed h n

theorem isRoot_rootOf (hp : Wf p) (x : Fin n) : isRoot p (rootOf p x) := hp x

/-- `rootOf` is invariant along the chain: the representative of `p x` is
the representative of `x`. -/
theorem rootOf_parent_eq (hp : Wf p) (x : Fin n) :
    rootOf p (p x) = rootOf p x := by
  have h1 : rootOf p (p x) = p (p^[n] x) := by
    unfold rootOf
    rw [← Function.iterate_succ_apply, Function.iterate_succ_apply']
  rw [h1, hp x]
  rfl

theorem iterate_chainLen_eq_rootOf (hp : Wf p) (x : Fin n) :
    p^[chainLen p x (hp.hasChain x)] x = rootOf p x := by
  set d := chainLen p x (hp.hasChain x) with hd
  have hdn : d ≤ n := chainLen_le hp x
  have hroot : isRoot p (p^[d] x) := isRoot_iterate_chainLen (hp.hasChain x)
  have : p^[n] x = p^[n - d] (p^[d] x) := by
    rw [← Function.iterate_add_apply]
    congr 1
    omega
  rw [rootOf, this, Function.iterate_fixed hroot]

theorem chainLen_pos (hp : Wf p) (hx : ¬ isRoot p x) :
    0 < chainLen p x (hp.hasChain x) := by
  rcases Nat.eq_zero_or_pos (chainLen p x (hp.hasChain x)) with h0 | hpos
  · exfalso
    have := isRoot_iterate_chainLen (hp.hasChain x)
    rw [h0] at this
    exact hx this
  · exact hpos

theorem chainLen_parent_lt (hp : Wf p) (hx : ¬ isRoot p x) :
    chainLen p (p x) (hp.hasChain (p x)) < chainLen p x (hp.hasChain x) := by
  set d := chainLen p x (hp.hasChain x) with hd
  have hdpos : 0 < d := chainLen_pos hp hx
  have hwit : p (p^[d-1] (p x)) = p^[d-1] (p x) := by
    have : p^[d-1] (p x) = p^[d] x := by
      rw [← Function.iterate_succ_apply]
      congr 1
      omega
    rw [this]
    exact isRoot_iterate_chainLen (hp.hasChain x)
  have hle : chainLen p (p x) (hp.hasChain (p x)) ≤ d - 1 := Nat.find_le hwit
  omega

/-- The chain from `x` to its representative has pairwise distinct items,
so its length is below `n`. -/
theorem chainLen_lt (hp : Wf p) (x : Fin n) :
    chainLen p x (hp.hasChain x) < n := by
  set d := chainLen p x (hp.hasChain x) with hd
  have hinj : Function.Injective (fun i : Fin (d+1) => p^[i.1] x) := by
    intro i j hij
    have hij' : p^[i.1] x = p^[j.1] x := hij
    by_contra hne
    rcases Nat.lt_or_ge i.1 j.1 with hlt | hge
    · have hroot : isRoot p (p^[d] x) := isRoot_iterate_chainLen (hp.hasChain x)
      have hjd : j.1 ≤ d := Nat.lt_succ_iff.mp j.2
      have hstep : p^[d - j.1 + i.1] x = p^[d] x := by
        have h1 : p^[d] x = p^[d - j.1] (p^[j.1] x) := by
          rw [← Function.iterate_add_apply]
          congr 1
          omega
        have h2 : p^[d - j.1] (p^[j.1] x) = p^[d - j.1] (p^[i.1] x) := by
          rw [← hij']
        rw [h1, h2, ← Function.iterate_add_apply]
      have hwit : p (p^[d - j.1 + i.1] x) = p^[d - j.1 + i.1] x := by
        rw [hstep]
        exact hroot
      have hmin : chainLen p x (hp.hasChain x) ≤ d - j.1 + i.1 := Nat.find_le hwit
      omega
    · rcases Nat.lt_or_ge j.1 i.1 with hlt' | hge'
      · have hroot : isRoot p (p^[d] x) := isRoot_iterate_chainLen (hp.hasChain x)
        have hid : i.1 ≤ d := Nat.lt_succ_iff.mp i.2
        have hstep : p^[d - i.1 + j.1] x = p^[d] x := by
          have h1 : p^[d] x = p^[d - i.1] (p^[i.1] x) := by
            rw [← Function.iterate_add_apply]
            congr 1
            omega
          rw [h1, hij', ← Function.iterate_add_apply]
        have hwit : p (p^[d - i.1 + j.1] x) = p^[d - i.1 + j.1] x := by
          rw [hstep]
          exact hroot
        have hmin : chainLen p x (hp.hasChain x) ≤ d - i.1 + j.1 := Nat.find_le hwit
        omega
      · exact hne (Fin.ext (by omega))
  have hcard := Fintype.card_le_of_injective _ hinj
  simp only [Fintype.card_fin] at hcard
  omega

/-! ### Rewriting one entry to a representative preserves the forest -/

theorem update_chain_aux (hp : Wf p) (hy : rootOf p y = r) :
    ∀ d z, chainLen p z (hp.hasChain z) = d →
      ∃ m, m ≤ d ∧ (Function.update p y r)^[m] z = rootOf p z := by
  intro d
  induction d using Nat.strong_induction_on with
  | _ d ih =>
    intro z hdz
    by_cases hz : isRoot p z
    · exact ⟨0, Nat.zero_le _, (rootOf_of_isRoot hz).symm⟩
    · by_cases hzy : z = y
      · subst hzy
        refine ⟨1, ?_, ?_⟩
        · have := chainLen_pos hp hz
          omega
        · rw [Function.iterate_one, Function.update_same, hy]
      · have hlt : chainLen p (p z) (hp.hasChain (p z)) < d := by
          rw [← hdz]
          exact chainLen_parent_lt hp hz
        obtain ⟨m, hm, hmeq⟩ := ih _ hlt (p z) rfl
        refine ⟨m + 1, by omega, ?_⟩
        rw [Function.iterate_succ_apply, Function.update_noteq hzy, hmeq,
          rootOf_parent_eq hp]

theorem isRoot_update_of_isRoot (hp : Wf p) (hy : rootOf p y = r)
    (hR : isRoot p r2) : isRoot (Function.update p y r) r2 := by
  by_cases h : r2 = y
  · subst h
    have : r = r2 := by
      rw [← hy, rootOf_of_isRoot hR]
    unfold isRoot
    rw [Function.update_same, this]
  · unfold isRoot
    rw [Function.update_noteq h]
    exact hR

theorem update_root_rootOf (hp : Wf p) (hy : rootOf p y = r) (z : Fin n) :
    rootOf (Function.update p y r) z = rootOf p z := by
  obtain ⟨m, hm, hmeq⟩ := update_chain_aux hp hy _ z rfl
  have hmn : m ≤ n := le_trans hm (chainLen_le hp z)
  have hrootq : isRoot (Function.update p y r) (rootOf p z) :=
    isRoot_update_of_isRoot hp hy (isRoot_rootOf hp z)
  have : (Function.update p y r)^[n] z
      = (Function.update p y r)^[n - m] ((Function.update p y r)^[m] z) := by
    rw [← Function.iterate_add_apply]
    congr 1
    omega
  rw [rootOf, this, hmeq, Function.iterate_fixed hrootq]

theorem update_root_wf (hp : Wf p) (hy : rootOf p y = r) :
    Wf (Function.update p y r) := by
  intro z
  have h1 : (Function.update p y r)^[n] z = rootOf p z := update_root_rootOf hp hy z
  have h2 : isRoot (Function.update p y r) (rootOf p z) :=
    isRoot_update_of_isRoot hp hy (isRoot_rootOf hp z)
  rw [h1]
  exact h2

theorem isRoot_update_iff (hp : Wf p) (hr : isRoot p r) (hy : rootOf p y = r)
    (z : Fin n) : isRoot (Function.update p y r) z ↔ isRoot p z := by
  constructor
  · intro hq
    by_cases h : z = y
    · subst h
      unfold isRoot at hq
      rw [Function.update_same] at hq
      rw [hq] at hr
      exact hr
    · unfold isRoot at hq
      rwa [Function.update_noteq h] at hq
  · exact isRoot_update_of_isRoot hp hy

/-! ### Correctness of `find` -/

theorem findAux_succ_of_root (fuel : Nat) (h : p x = x) :
    findAux n (fuel+1) p x = (p, x) := by
  simp [findAux, h]

theorem findAux_succ_of_step (fuel : Nat) (h : ¬ p x = x) :
    findAux n (fuel+1) p x =
      (Function.update (findAux n fuel p (p x)).1 x (findAux n fuel p (p x)).2,
        (findAux n fuel p (p x)).2) := by
  simp [findAux, h]

theorem findAux_spec (hp : Wf p) :
    ∀ fuel (x : Fin n), chainLen p x (hp.hasChain x) ≤ fuel →
      (findAux n fuel p x).2 = rootOf p x ∧
      Wf (findAux n fuel p x).1 ∧
      (∀ z, rootOf (findAux n fuel p x).1 z = rootOf p z) ∧
      (∀ z, isRoot (findAux n fuel p x).1 z ↔ isRoot p z) := by
  intro fuel
  induction fuel with
  | zero =>
    intro x hx
    have h0 : chainLen p x (hp.hasChain x) = 0 := Nat.le_zero.mp hx
    have hroot : isRoot p x := by
      have := isRoot_iterate_chainLen (hp.hasChain x)
      rwa [h0, Function.iterate_zero_apply] at this
    exact ⟨(rootOf_of_isRoot hroot).symm, hp, fun z => rfl, fun z => Iff.rfl⟩
  | succ fuel ih =>
    intro x hx
    by_cases hroot : p x = x
    · rw [findAux_succ_of_root fuel hroot]
      exact ⟨(rootOf_of_isRoot hroot).symm, hp, fun z => rfl, fun z => Iff.rfl⟩
    · rw [findAux_succ_of_step fuel hroot]
      have hclt : chainLen p (p x) (hp.hasChain (p x)) ≤ fuel := by
        have := chainLen_parent_lt hp hroot
        omega
      obtain ⟨h2, hwf, hroots, hiff⟩ := ih (p x) hclt
      have hr2 : (findAux n fuel p (p x)).2 = rootOf p x := by
        rw [h2, rootOf_parent_eq hp]
      have hrq : isRoot (findAux n fuel p (p x)).1 (findAux n fuel p (p x)).2 := by
        rw [hr2]
        exact (hiff _).mpr (isRoot_rootOf hp x)
      have hyq : rootOf (findAux n fuel p (p x)).1 x = (findAux n fuel p (p x)).2 := by
        rw [hr2, hroots x]
      refine ⟨hr2, ?_, ?_, ?_⟩
      · exact update_root_wf hwf hyq
      · intro z
        rw [update_root_rootOf hwf hyq z, hroots z]
      · intro z
        rw [isRoot_update_iff hwf hrq hyq z, hiff z]

theorem find_root_eq (s : DSU n) (hs : Wf s.parent) (x : Fin n) :
    (s.find x).2 = rootOf s.parent x :=
  (findAux_spec hs n x (le_of_lt (chainLen_lt hs x))).1

theorem find_wf (s : DSU n) (hs : Wf s.parent) (x : Fin n) :
    Wf (s.find x).1.parent :=
  (findAux_spec hs n x (le_of_lt (chainLen_lt hs x))).2.1

theorem find_rootOf_eq (s : DSU n) (hs : Wf s.parent) (x z : Fin n) :
    rootOf (s.find x).1.parent z = rootOf s.parent z :=
  (findAux_spec hs n x (le_of_lt (chainLen_lt hs x))).2.2.1 z

theorem find_isRoot_iff (s : DSU n) (hs : Wf s.parent) (x z : Fin n) :
    isRoot (s.find x).1.parent z ↔ isRoot s.parent z :=
  (findAux_spec hs n x (le_of_lt (chainLen_lt hs x))).2.2.2 z

/-! ### Correctness of `union` -/

/-- The number of distinct representatives: the connected components of the
partition the structure maintains. -/
def numRoots (p : Fin n → Fin n) : Nat :=
  (Finset.univ.image (rootOf p)).card

theorem attach_chain_aux (hp : Wf p) (h2 : isRoot p r2) (hne : r1 ≠ r2) :
    ∀ d z, chainLen p z (hp.hasChain z) = d →
      ∃ m, m ≤ d + 1 ∧ (Function.update p r2 r1)^[m] z
        = (if rootOf p z = r2 then r1 else rootOf p z) := by
  intro d
  induction d using Nat.strong_induction_on with
  | _ d ih =>
    intro z hdz
    by_cases hz : isRoot p z
    · by_cases hz2 : z = r2
      · subst hz2
        refine ⟨1, by omega, ?_⟩
        rw [Function.iterate_one, Function.update_same, rootOf_of_isRoot hz,
          if_pos rfl]
      · refine ⟨0, by omega, ?_⟩
        rw [Function.iterate_zero_apply, rootOf_of_isRoot hz, if_neg hz2]
    · have hz2 : z ≠ r2 := by
        intro h
        rw [h] at hz
        exact hz h2
      have hlt : chainLen p (p z) (hp.hasChain (p z)) < d := by
        rw [← hdz]
        exact chainLen_parent_lt hp hz
      obtain ⟨m, hm, hmeq⟩ := ih _ hlt (p z) rfl
      refine ⟨m + 1, by omega, ?_⟩
      rw [Function.iterate_succ_apply, Function.update_noteq hz2, hmeq,
        rootOf_parent_eq hp]

theorem attach_isRoot_target (hp : Wf p) (h1 : isRoot p r1) (h2 : isRoot p r2)
    (hne : r1 ≠ r2) (z : Fin n) :
    isRoot (Function.update p r2 r1)
      (if rootOf p z = r2 then r1 else rootOf p z) := by
  by_cases hc : rootOf p z = r2
  · rw [if_pos hc]
    unfold isRoot
    rw [Function.update_noteq hne]
    exact h1
  · rw [if_neg hc]
    unfold isRoot
    rw [Function.update_noteq hc]
    exact isRoot_rootOf hp z

theorem attach_rootOf (hp : Wf p) (h1 : isRoot p r1) (h2 : isRoot p r2)
    (hne : r1 ≠ r2) (z : Fin n) :
    rootOf (Function.update p r2 r1) z
      = (if rootOf p z = r2 then r1 else rootOf p z) := by
  obtain ⟨m, hm, hmeq⟩ := attach_chain_aux hp h2 hne _ z rfl
  have hmn : m ≤ n := by
    have := chainLen_lt hp z
    omega
  have hroot := attach_isRoot_target hp h1 h2 hne z
  have hsplit : (Function.update p r2 r1)^[n] z
      = (Function.update p r2 r1)^[n - m] ((Function.update p r2 r1)^[m] z) := by
    rw [← Function.iterate_add_apply]
    congr 1
    omega
  rw [rootOf, hsplit, hmeq, Function.iterate_fixed hroot]

theorem attach_wf (hp : Wf p) (h1 : isRoot p r1) (h2 : isRoot p r2)
    (hne : r1 ≠ r2) : Wf (Function.update p r2 r1) := by
  intro z
  have h := attach_rootOf hp h1 h2 hne z
  rw [show (Function.update p r2 r1)^[n] z = rootOf (Function.update p r2 r1) z
    from rfl, h]
  exact attach_isRoot_target hp h1 h2 hne z

theorem attach_numRoots (hp : Wf p) (h1 : isRoot p r1) (h2 : isRoot p r2)
    (hne : r1 ≠ r2) :
    numRoots (Function.update p r2 r1) + 1 = numRoots p := by
  classical
  have himg : Finset.univ.image (rootOf (Function.update p r2 r1))
      = (Finset.univ.image (rootOf p)).erase r2 := by
    ext w
    constructor
    · intro hw
      obtain ⟨z, _, hz⟩ := Finset.mem_image.mp hw
      rw [attach_rootOf hp h1 h2 hne z] at hz
      by_cases hc : rootOf p z = r2
      · rw [if_pos hc] at hz
        refine Finset.mem_erase.mpr ⟨?_, ?_⟩
        · rw [← hz]
          exact hne
        · refine Finset.mem_image.mpr ⟨r1, Finset.mem_univ _, ?_⟩
          rw [rootOf_of_isRoot h1, hz]
      · rw [if_neg hc] at hz
        refine Finset.mem_erase.mpr ⟨?_, ?_⟩
        · rw [← hz]
          exact hc
        · exact Finset.mem_image.mpr ⟨z, Finset.mem_univ _, hz⟩
    · intro hw
      obtain ⟨hwne, hwmem⟩ := Finset.mem_erase.mp hw
      obtain ⟨z, _, hz⟩ := Finset.mem_image.mp hwmem
      refine Finset.mem_image.mpr ⟨z, Finset.mem_univ _, ?_⟩
      rw [attach_rootOf hp h1 h2 hne z, hz, if_neg hwne]
  unfold numRoots
  rw [himg, Finset.card_erase_of_mem]
  · have hpos : 0 < (Finset.univ.image (rootOf p)).card := by
      refine Finset.card_pos.mpr ⟨r2, ?_⟩
      exact Finset.mem_image.mpr ⟨r2, Finset.mem_univ _, rootOf_of_isRoot h2⟩
    omega
  · exact Finset.mem_image.mpr ⟨r2, Finset.mem_univ _, rootOf_of_isRoot h2⟩

theorem numRoots_congr (h : ∀ z, rootOf p z = rootOf q z) :
    numRoots p = numRoots q := by
  unfold numRoots
  congr 1
  apply Finset.image_congr
  intro z _
  exact h z

/-- The representative `union` computes for `item2` (after both finds). -/
theorem union_inner_root (s : DSU n) (hs : Wf s.parent) (x y : Fin n) :
    ((s.find x).1.find y).2 = rootOf s.parent y := by
  rw [find_root_eq _ (find_wf s hs x) y, find_rootOf_eq s hs x y]

theorem union_eq_of_same (s : DSU n) (x y : Fin n)
    (h : ((s.find x).1.find y).2 = (s.find x).2) :
    s.union x y = (((s.find x).1.find y).1, false) := by
  simp [DSU.union, h]

theorem union_eq_of_diff (s : DSU n) (x y : Fin n)
    (h : ¬ ((s.find x).1.find y).2 = (s.find x).2) :
    s.union x y =
      (⟨Function.update ((s.find x).1.find y).1.parent
        ((s.find x).1.find y).2 (s.find x).2⟩, true) := by
  simp [DSU.union, h]

theorem union_false_iff (s : DSU n) (hs : Wf s.parent) (x y : Fin n) :
    (s.union x y).2 = false ↔ rootOf s.parent x = rootOf s.parent y := by
  by_cases h : ((s.find x).1.find y).2 = (s.find x).2
  · rw [union_eq_of_same s x y h]
    have := h
    rw [union_inner_root s hs x y, find_root_eq s hs x] at this
    simp [this.symm]
  · rw [union_eq_of_diff s x y h]
    have := h
    rw [union_inner_root s hs x y, find_root_eq s hs x] at this
    simp
    intro hc
    exact this hc.symm

theorem union_true_iff (s : DSU n) (hs : Wf s.parent) (x y : Fin n) :
    (s.union x y).2 = true ↔ rootOf s.parent x ≠ rootOf s.parent y := by
  rw [← not_iff_not]
  simp only [Bool.not_eq_true, not_not]
  exact union_false_iff s hs x y

theorem union_state_wf (s : DSU n) (hs : Wf s.parent) (x y : Fin n) :
    Wf (s.union x y).1.parent := by
  have hwf2 : Wf ((s.find x).1.find y).1.parent := find_wf _ (find_wf s hs x) y
  by_cases h : ((s.find x).1.find y).2 = (s.find x).2
  · rw [union_eq_of_same s x y h]
    exact hwf2
  · rw [union_eq_of_diff s x y h]
    refine attach_wf hwf2 ?_ ?_ ?_
    · rw [find_isRoot_iff _ (find_wf s hs x) y, find_isRoot_iff s hs x,
        find_root_eq s hs x]
      exact isRoot_rootOf hs x
    · have hroot : isRoot (s.find x).1.parent ((s.find x).1.find y).2 := by
        rw [find_root_eq _ (find_wf s hs x) y]
        exact isRoot_rootOf (find_wf s hs x) y
      exact (find_isRoot_iff _ (find_wf s hs x) y _).mpr hroot
    · intro hc
      exact h (by rw [hc])

theorem union_false_rootOf (s : DSU n) (hs : Wf s.parent) (x y : Fin n)
    (h : (s.union x y).2 = false) (z : Fin n) :
    rootOf (s.union x y).1.parent z = rootOf s.parent z := by
  by_cases hc : ((s.find x).1.find y).2 = (s.find x).2
  · rw [union_eq_of_same s x y hc]
    rw [find_rootOf_eq _ (find_wf s hs x) y, find_rootOf_eq s hs x]
  · rw [union_eq_of_diff s x y hc] at h
    simp at h

theorem union_true_rootOf (s : DSU n) (hs : Wf s.parent) (x y : Fin n)
    (h : (s.union x y).2 = true) (z : Fin n) :
    rootOf (s.union x y).1.parent z =
      (if rootOf s.parent z = rootOf s.parent y then rootOf s.parent x
        else rootOf s.parent z) := by
  by_cases hc : ((s.find x).1.find y).2 = (s.find x).2
  · rw [union_eq_of_same s x y hc] at h
    simp at h
  · have hwf2 : Wf ((s.find x).1.find y).1.parent := find_wf _ (find_wf s hs x) y
    have h1 : isRoot ((s.find x).1.find y).1.parent (s.find x).2 := by
      rw [find_isRoot_iff _ (find_wf s hs x) y, find_isRoot_iff s hs x,
        find_root_eq s hs x]
      exact isRoot_rootOf hs x
    have h2 : isRoot ((s.find x).1.find y).1.parent ((s.find x).1.find y).2 := by
      have hroot : isRoot (s.find x).1.parent ((s.find x).1.find y).2 := by
        rw [find_root_eq _ (find_wf s hs x) y]
        exact isRoot_rootOf (find_wf s hs x) y
      exact (find_isRoot_iff _ (find_wf s hs x) y _).mpr hroot
    have hne : (s.find x).2 ≠ ((s.find x).1.find y).2 := fun hcc => hc hcc.symm
    rw [union_eq_of_diff s x y hc]
    have hattach := attach_rootOf hwf2 h1 h2 hne z
    have hz2 : rootOf ((s.find x).1.find y).1.parent z = rootOf s.parent z := by
      rw [find_rootOf_eq _ (find_wf s hs x) y, find_rootOf_eq s hs x]
    rw [hattach, hz2, union_inner_root s hs x y, find_root_eq s hs x]

theorem union_true_numRoots (s : DSU n) (hs : Wf s.parent) (x y : Fin n)
    (h : (s.union x y).2 = true) :
    numRoots (s.union x y).1.parent + 1 = numRoots s.parent := by
  by_cases hc : ((s.find x).1.find y).2 = (s.find x).2
  · rw [union_eq_of_same s x y hc] at h
    simp at h
  · have hwf2 : Wf ((s.find x).1.find y).1.parent := find_wf _ (find_wf s hs x) y
    have h1 : isRoot ((s.find x).1.find y).1.parent (s.find x).2 := by
      rw [find_isRoot_iff _ (find_wf s hs x) y, find_isRoot_iff s hs x,
        find_root_eq s hs x]
      exact isRoot_rootOf hs x
    have h2 : isRoot ((s.find x).1.find y).1.parent ((s.find x).1.find y).2 := by
      have hroot : isRoot (s.find x).1.parent ((s.find x).1.find y).2 := by
        rw [find_root_eq _ (find_wf s hs x) y]
        exact isRoot_rootOf (find_wf s hs x) y
      exact (find_isRoot_iff _ (find_wf s hs x) y _).mpr hroot
    have hne : (s.find x).2 ≠ ((s.find x).1.find y).2 := fun hcc => hc hcc.symm
    rw [union_eq_of_diff s x y hc]
    have := attach_numRoots hwf2 h1 h2 hne
    rw [this]
    apply numRoots_congr
    intro z
    rw [find_rootOf_eq _ (find_wf s hs x) y, find_rootOf_eq s hs x]

theorem union_false_numRoots (s : DSU n) (hs : Wf s.parent) (x y : Fin n)
    (h : (s.union x y).2 = false) :
    numRoots (s.union x y).1.parent = numRoots s.parent :=
  numRoots_congr (union_false_rootOf s hs x y h)

/-! ### Well-formedness along any operation sequence -/

theorem init_wf : Wf (DSU.init n).parent := by
  intro x
  simp [DSU.init, Function.iterate_fixed]

theorem runOps_wf (ops : List (DSUOp n)) (s : DSU n) (hs : Wf s.parent) :
    Wf (runOps s ops).parent := by
  induction ops generalizing s with
  | nil => exact hs
  | cons op ops ih =>
    cases op with
    | doFind x => exact ih _ (find_wf s hs x)
    | doUnion x y => exact ih _ (union_state_wf s hs x y)

/-- A well-formed parent map has no cycle besides self-loops: any item
returning to itself after `k > 0` parent steps is already a fixed point. -/
theorem no_nontrivial_cycle (hp : Wf p) (x : Fin n) (k : Nat)
    (hk : 0 < k) (hcyc : p^[k] x = x) : p x = x := by
  have hmk : p^[k * n] x = x := by
    rw [Function.iterate_mul]
    exact Function.iterate_fixed hcyc n
  have hge : n ≤ k * n := Nat.le_mul_of_pos_left n hk
  have hroot : p^[k * n] x = p^[n] x := by
    have : p^[k * n] x = p^[k * n - n] (p^[n] x) := by
      rw [← Function.iterate_add_apply]
      congr 1
      omega
    rw [this, Function.iterate_fixed (hp x)]
  rw [hmk] at hroot
  have := hp x
  rw [← hroot] at this
  exact this

/-! ## Building the spanning forest from the scored pairs

`main` sorts `all_scores` descending by score (Python's sort is stable) and
runs `dsu.union(u, v)` on each triple, recording an undirected adjacency
for exactly the accepted ones. -/

/-- A scored pair `(score, u_id, v_id)` as appended to `all_scores`. -/
abbrev ScoredPair (n : Nat) := Nat × Fin n × Fin n

/-- Two scored pairs over the same unordered id pair. -/
def samePair (e e' : ScoredPair n) : Prop :=
  (e.2.1 = e'.2.1 ∧ e.2.2 = e'.2.2) ∨ (e.2.1 = e'.2.2 ∧ e.2.2 = e'.2.1)

/-- `all_scores.sort(key=lambda x: x[0], reverse=True)`: a stable
descending sort on the score.  Python's sort is stable, and any stable sort
produces the same list, so it is modelled by a stable insertion sort. -/
def sortScores (l : List (ScoredPair n)) : List (ScoredPair n) :=
  List.insertionSort (fun a b => b.1 ≤ a.1) l

/-- The in-progress state of the forest loop: the DSU, the
`adjacency_list` (a map to neighbour lists, appended in processing order),
and the accepted entries so far (kept with their scores). -/
abbrev ForestState (n : Nat) :=
  DSU n × (Fin n → List (Fin n)) × List (ScoredPair n)

/-- One iteration of the forest loop: `if dsu.union(u_id, v_id):` append
`v` to `adjacency_list[u]` and `u` to `adjacency_list[v]`. -/
def forestStep (st : ForestState n) (e : ScoredPair n) : ForestState n :=
  let u := st.1.union e.2.1 e.2.2
  if u.2 then
    (u.1,
      Function.update
        (Function.update st.2.1 e.2.1 (st.2.1 e.2.1 ++ [e.2.2]))
        e.2.2
        ((Function.update st.2.1 e.2.1 (st.2.1 e.2.1 ++ [e.2.2])) e.2.2 ++ [e.2.1]),
      st.2.2 ++ [e])
  else (u.1, st.2.1, st.2.2)

/-- The initial forest state: fresh DSU, empty `defaultdict(list)`. -/
def forestInit (n : Nat) : ForestState n := (DSU.init n, fun _ => [], [])

/-- Run the forest loop over a list of scored pairs (already sorted by the
caller). -/
def buildForest (l : List (ScoredPair n)) : ForestState n :=
  l.foldl forestStep (forestInit n)

/-- The undirected graph whose edges are the accepted entries. -/
def forestGraph (E : List (ScoredPair n)) : SimpleGraph (Fin n) where
  Adj a b := a ≠ b ∧ ∃ e ∈ E, (e.2.1 = a ∧ e.2.2 = b) ∨ (e.2.1 = b ∧ e.2.2 = a)
  symm := by
    intro a b hab
    obtain ⟨hne, e, he, hor⟩ := hab
    exact ⟨hne.symm, e, he, hor.symm⟩
  loopless := by
    intro a ha
    exact ha.1 rfl

theorem forestGraph_nil : forestGraph ([] : List (ScoredPair n)) = ⊥ := by
  ext a b
  simp [forestGraph]

theorem forestGraph_mono (E t : List (ScoredPair n)) :
    forestGraph E ≤ forestGraph (E ++ t) := by
  intro a b hab
  obtain ⟨hne, e, he, hor⟩ := hab
  exact ⟨hne, e, List.mem_append_left t he, hor⟩

theorem forestGraph_append_edge (E : List (ScoredPair n)) (e : ScoredPair n)
    (hne : e.2.1 ≠ e.2.2) :
    forestGraph (E ++ [e]) = forestGraph E ⊔ SimpleGraph.edge e.2.1 e.2.2 := by
  ext a b
  simp only [forestGraph, SimpleGraph.sup_adj, SimpleGraph.edge_adj,
    List.mem_append, List.mem_singleton]
  constructor
  · rintro ⟨hab, e', he' | he', hor⟩
    · exact Or.inl ⟨hab, e', he', hor⟩
    · subst he'
      rcases hor with ⟨h1, h2⟩ | ⟨h1, h2⟩
      · exact Or.inr ⟨Or.inl ⟨h1.symm, h2.symm⟩, hab⟩
      · exact Or.inr ⟨Or.inr ⟨h2.symm, h1.symm⟩, hab⟩
  · rintro (⟨hab, e', he', hor⟩ | ⟨hor, hab⟩)
    · exact ⟨hab, e', Or.inl he', hor⟩
    · refine ⟨hab, e, Or.inr rfl, ?_⟩
      rcases hor with ⟨h1, h2⟩ | ⟨h1, h2⟩
      · exact Or.inl ⟨h1.symm, h2.symm⟩
      · exact Or.inr ⟨h2.symm, h1.symm⟩

theorem forestGraph_edgeSet_mem (E : List (ScoredPair n)) (ed : Sym2 (Fin n))
    (hed : ed ∈ (forestGraph E).edgeSet) :
    ∃ e ∈ E, ed = s(e.2.1, e.2.2) := by
  induction ed using Sym2.ind with
  | _ a b =>
    rw [SimpleGraph.mem_edgeSet] at hed
    obtain ⟨hab, e, he, hor⟩ := hed
    refine ⟨e, he, ?_⟩
    rcases hor with ⟨h1, h2⟩ | ⟨h1, h2⟩
    · rw [h1, h2]
    · rw [h1, h2]
      exact Sym2.eq_swap

/-! ### Reachability and acyclicity under a single added edge -/

theorem reachable_sup_edge_iff {V : Type} (G : SimpleGraph V) (u v : V)
    (huv : u ≠ v) (a b : V) :
    (G ⊔ SimpleGraph.edge u v).Reachable a b ↔
      G.Reachable a b ∨ (G.Reachable a u ∧ G.Reachable v b) ∨
        (G.Reachable a v ∧ G.Reachable u b) := by
  constructor
  · intro h
    rw [SimpleGraph.reachable_iff_reflTransGen] at h
    induction h with
    | refl => exact Or.inl (SimpleGraph.Reachable.refl a)
    | tail _hsteps hstep ih =>
      rename_i c d
      rw [SimpleGraph.sup_adj, SimpleGraph.edge_adj] at hstep
      rcases hstep with hG | ⟨hor, _hne⟩
      · rcases ih with h1 | ⟨h1, h2⟩ | ⟨h1, h2⟩
        · exact Or.inl (h1.trans hG.reachable)
        · exact Or.inr (Or.inl ⟨h1, h2.trans hG.reachable⟩)
        · exact Or.inr (Or.inr ⟨h1, h2.trans hG.reachable⟩)
      · rcases hor with ⟨hcu, hdv⟩ | ⟨hcv, hdu⟩
        · rw [hcu] at ih
          rw [hdv]
          rcases ih with h1 | ⟨h1, _h2⟩ | ⟨h1, h2⟩
          · exact Or.inr (Or.inl ⟨h1, SimpleGraph.Reachable.refl v⟩)
          · exact Or.inr (Or.inl ⟨h1, SimpleGraph.Reachable.refl v⟩)
          · exact Or.inl h1
        · rw [hcv] at ih
          rw [hdu]
          rcases ih with h1 | ⟨h1, h2⟩ | ⟨h1, _h2⟩
          · exact Or.inr (Or.inr ⟨h1, SimpleGraph.Reachable.refl u⟩)
          · exact Or.inl h1
          · exact Or.inr (Or.inr ⟨h1, SimpleGraph.Reachable.refl u⟩)
  · have hmono : G ≤ G ⊔ SimpleGraph.edge u v := le_sup_left
    have hedge : (G ⊔ SimpleGraph.edge u v).Reachable u v := by
      refine SimpleGraph.Adj.reachable ?_
      rw [SimpleGraph.sup_adj, SimpleGraph.edge_adj]
      exact Or.inr ⟨Or.inl ⟨rfl, rfl⟩, huv⟩
    rintro (h1 | ⟨h1, h2⟩ | ⟨h1, h2⟩)
    · exact h1.mono hmono
    · exact ((h1.mono hmono).trans hedge).trans (h2.mono hmono)
    · exact ((h1.mono hmono).trans hedge.symm).trans (h2.mono hmono)

theorem isAcyclic_sup_edge {V : Type} (G : SimpleGraph V) (u v : V)
    (huv : u ≠ v) (hnr : ¬ G.Reachable u v) (hG : G.IsAcyclic) :
    (G ⊔ SimpleGraph.edge u v).IsAcyclic := by
  intro a c hcyc
  by_cases he : s(u, v) ∈ c.edges
  · have hbridge : (G ⊔ SimpleGraph.edge u v).IsBridge s(u, v) := by
      rw [SimpleGraph.isBridge_iff]
      constructor
      · rw [SimpleGraph.sup_adj, SimpleGraph.edge_adj]
        exact Or.inr ⟨Or.inl ⟨rfl, rfl⟩, huv⟩
      · intro hreach
        apply hnr
        refine hreach.mono ?_
        intro x y hxy
        rw [SimpleGraph.sdiff_adj, SimpleGraph.sup_adj,
          SimpleGraph.fromEdgeSet_adj] at hxy
        obtain ⟨hx1 | hx2, hx3⟩ := hxy
        · exact hx1
        · exfalso
          rw [SimpleGraph.edge_adj] at hx2
          apply hx3
          constructor
          · rcases hx2.1 with ⟨h1, h2⟩ | ⟨h1, h2⟩
            · rw [h1, h2]
              exact Set.mem_singleton _
            · rw [h1, h2]
              rw [Sym2.eq_swap]
              exact Set.mem_singleton _
          · exact hx2.2
    rw [SimpleGraph.isBridge_iff_mem_and_forall_cycle_not_mem] at hbridge
    exact hbridge.2 c hcyc he
  · have hsub : ∀ ed ∈ c.edges, ed ∈ G.edgeSet := by
      intro ed hed
      have hmem := c.edges_subset_edgeSet hed
      rw [SimpleGraph.edgeSet_sup, SimpleGraph.edge_edgeSet_of_ne huv] at hmem
      rcases hmem with h1 | h2
      · exact h1
      · exfalso
        rw [Set.mem_singleton_iff] at h2
        rw [h2] at hed
        exact he hed
    exact hG (c.transfer G hsub) (hcyc.transfer hsub)

/-! ### The forest loop invariant -/

/-- The invariant of the greedy forest loop: the DSU is well-formed, its
partition is exactly graph connectivity over the accepted edges, the
accepted edges form an acyclic graph with `n - numRoots` edges, and the
`adjacency_list` holds exactly the accepted edges in both directions. -/
def ForestInv (st : ForestState n) : Prop :=
  Wf st.1.parent ∧
  (∀ a b : Fin n, rootOf st.1.parent a = rootOf st.1.parent b ↔
    (forestGraph st.2.2).Reachable a b) ∧
  (forestGraph st.2.2).IsAcyclic ∧
  st.2.2.length + numRoots st.1.parent = n ∧
  (∀ a b : Fin n, b ∈ st.2.1 a ↔
    ∃ e ∈ st.2.2, (e.2.1 = a ∧ e.2.2 = b) ∨ (e.2.1 = b ∧ e.2.2 = a))

theorem rootOf_init (x : Fin n) : rootOf (DSU.init n).parent x = x :=
  Function.iterate_fixed rfl n

theorem forestInit_inv : ForestInv (forestInit n) := by
  unfold ForestInv forestInit
  refine ⟨init_wf, ?_, ?_, ?_, ?_⟩
  · intro a b
    rw [rootOf_init, rootOf_init]
    show a = b ↔ (forestGraph []).Reachable a b
    rw [forestGraph_nil, SimpleGraph.reachable_bot]
  · show (forestGraph []).IsAcyclic
    rw [forestGraph_nil]
    exact SimpleGraph.isAcyclic_bot
  · show (0 : Nat) + numRoots (DSU.init n).parent = n
    have : numRoots (DSU.init n).parent = n := by
      unfold numRoots
      have himg : Finset.univ.image (rootOf (DSU.init n).parent)
          = (Finset.univ : Finset (Fin n)) := by
        apply Finset.eq_univ_of_forall
        intro x
        exact Finset.mem_image.mpr ⟨x, Finset.mem_univ _, rootOf_init x⟩
      rw [himg, Finset.card_univ, Fintype.card_fin]
    omega
  · intro a b
    simp [forestInit]

theorem forestStep_eq_of_false (st : ForestState n) (e : ScoredPair n)
    (h : (st.1.union e.2.1 e.2.2).2 = false) :
    forestStep st e = ((st.1.union e.2.1 e.2.2).1, st.2.1, st.2.2) := by
  simp [forestStep, h]

theorem forestStep_eq_of_true (st : ForestState n) (e : ScoredPair n)
    (h : (st.1.union e.2.1 e.2.2).2 = true) :
    forestStep st e = ((st.1.union e.2.1 e.2.2).1,
      Function.update
        (Function.update st.2.1 e.2.1 (st.2.1 e.2.1 ++ [e.2.2]))
        e.2.2
        ((Function.update st.2.1 e.2.1 (st.2.1 e.2.1 ++ [e.2.2])) e.2.2 ++ [e.2.1]),
      st.2.2 ++ [e]) := by
  simp [forestStep, h]

theorem forestStep_inv (st : ForestState n) (e : ScoredPair n)
    (hinv : ForestInv st) : ForestInv (forestStep st e) := by
  obtain ⟨hwf, hiff, hacyc, hcount, hadj⟩ := hinv
  by_cases hu : (st.1.union e.2.1 e.2.2).2 = true
  · rw [forestStep_eq_of_true st e hu]
    have hrne : rootOf st.1.parent e.2.1 ≠ rootOf st.1.parent e.2.2 :=
      (union_true_iff st.1 hwf e.2.1 e.2.2).mp hu
    have hne : e.2.1 ≠ e.2.2 := by
      intro hc
      exact hrne (by rw [hc])
    have hnr : ¬ (forestGraph st.2.2).Reachable e.2.1 e.2.2 := by
      intro hc
      exact hrne ((hiff e.2.1 e.2.2).mpr hc)
    have hgraph := forestGraph_append_edge st.2.2 e hne
    refine ⟨union_state_wf st.1 hwf e.2.1 e.2.2, ?_, ?_, ?_, ?_⟩
    · intro a b
      show rootOf (st.1.union e.2.1 e.2.2).1.parent a
          = rootOf (st.1.union e.2.1 e.2.2).1.parent b ↔
        (forestGraph (st.2.2 ++ [e])).Reachable a b
      rw [union_true_rootOf st.1 hwf e.2.1 e.2.2 hu a,
        union_true_rootOf st.1 hwf e.2.1 e.2.2 hu b, hgraph,
        reachable_sup_edge_iff _ _ _ hne a b,
        ← hiff a b, ← hiff a e.2.1, ← hiff e.2.2 b, ← hiff a e.2.2,
        ← hiff e.2.1 b]
      by_cases h1 : rootOf st.1.parent a = rootOf st.1.parent e.2.2 <;>
        by_cases h2 : rootOf st.1.parent b = rootOf st.1.parent e.2.2
      · rw [if_pos h1, if_pos h2]
        constructor
        · intro _
          exact Or.inl (h1.trans h2.symm)
        · intro _
          rfl
      · rw [if_pos h1, if_neg h2]
        constructor
        · intro hgoal
          exact Or.inr (Or.inr ⟨h1, hgoal⟩)
        · rintro (hg | ⟨_hg1, hg2⟩ | ⟨_hg1, hg2⟩)
          · exact absurd (hg.symm.trans h1) h2
          · exact absurd hg2.symm h2
          · exact hg2
      · rw [if_neg h1, if_pos h2]
        constructor
        · intro hgoal
          exact Or.inr (Or.inl ⟨hgoal, h2.symm⟩)
        · rintro (hg | ⟨hg1, _hg2⟩ | ⟨hg1, _hg2⟩)
          · exact absurd (hg.trans h2) h1
          · exact hg1
          · exact absurd hg1 h1
      · rw [if_neg h1, if_neg h2]
        constructor
        · intro hgoal
          exact Or.inl hgoal
        · rintro (hg | ⟨_hg1, hg2⟩ | ⟨hg1, _hg2⟩)
          · exact hg
          · exact absurd hg2.symm h2
          · exact absurd hg1 h1
    · show (forestGraph (st.2.2 ++ [e])).IsAcyclic
      rw [hgraph]
      exact isAcyclic_sup_edge _ _ _ hne hnr hacyc
    · show (st.2.2 ++ [e]).length
          + numRoots (st.1.union e.2.1 e.2.2).1.parent = n
      have hnum := union_true_numRoots st.1 hwf e.2.1 e.2.2 hu
      rw [List.length_append, List.length_singleton]
      omega
    · intro a b
      show b ∈ Function.update
          (Function.update st.2.1 e.2.1 (st.2.1 e.2.1 ++ [e.2.2]))
          e.2.2
          ((Function.update st.2.1 e.2.1 (st.2.1 e.2.1 ++ [e.2.2])) e.2.2
            ++ [e.2.1]) a ↔ _
      have hv_of_u : (Function.update st.2.1 e.2.1 (st.2.1 e.2.1 ++ [e.2.2])) e.2.2
          = st.2.1 e.2.2 := Function.update_noteq (Ne.symm hne) _ _
      by_cases ha2 : a = e.2.2
      · rw [ha2, Function.update_same, hv_of_u]
        constructor
        · intro hb
          rcases List.mem_append.mp hb with h | h
          · obtain ⟨e', he', hor⟩ := (hadj e.2.2 b).mp h
            exact ⟨e', List.mem_append_left _ he', hor⟩
          · rw [List.mem_singleton] at h
            subst h
            exact ⟨e, List.mem_append_right _ (List.mem_singleton_self e),
              Or.inr ⟨rfl, rfl⟩⟩
        · rintro ⟨e', he', hor⟩
          rcases List.mem_append.mp he' with h | h
          · exact List.mem_append_left _ ((hadj e.2.2 b).mpr ⟨e', h, hor⟩)
          · rw [List.mem_singleton] at h
            subst h
            rcases hor with ⟨hh1, _⟩ | ⟨hh1, _⟩
            · exact absurd hh1 hne
            · apply List.mem_append_right
              rw [List.mem_singleton]
              exact hh1.symm
      · rw [Function.update_noteq ha2]
        by_cases ha1 : a = e.2.1
        · rw [ha1, Function.update_same]
          constructor
          · intro hb
            rcases List.mem_append.mp hb with h | h
            · obtain ⟨e', he', hor⟩ := (hadj e.2.1 b).mp h
              exact ⟨e', List.mem_append_left _ he', hor⟩
            · rw [List.mem_singleton] at h
              subst h
              exact ⟨e, List.mem_append_right _ (List.mem_singleton_self e),
                Or.inl ⟨rfl, rfl⟩⟩
          · rintro ⟨e', he', hor⟩
            rcases List.mem_append.mp he' with h | h
            · exact List.mem_append_left _ ((hadj e.2.1 b).mpr ⟨e', h, hor⟩)
            · rw [List.mem_singleton] at h
              subst h
              rcases hor with ⟨_, hh2⟩ | ⟨_, hh2⟩
              · apply List.mem_append_right
                rw [List.mem_singleton]
                exact hh2.symm
              · exact absurd hh2.symm hne
        · rw [Function.update_noteq ha1]
          constructor
          · intro hb
            obtain ⟨e', he', hor⟩ := (hadj a b).mp hb
            exact ⟨e', List.mem_append_left _ he', hor⟩
          · rintro ⟨e', he', hor⟩
            rcases List.mem_append.mp he' with h | h
            · exact (hadj a b).mpr ⟨e', h, hor⟩
            · rw [List.mem_singleton] at h
              subst h
              rcases hor with ⟨hh1, _⟩ | ⟨_, hh2⟩
              · exact absurd hh1.symm ha1
              · exact absurd hh2.symm ha2
  · have hu' : (st.1.union e.2.1 e.2.2).2 = false := by
      revert hu
      cases (st.1.union e.2.1 e.2.2).2 <;> simp
    rw [forestStep_eq_of_false st e hu']
    refine ⟨union_state_wf st.1 hwf e.2.1 e.2.2, ?_, hacyc, ?_, hadj⟩
    · intro a b
      show rootOf (st.1.union e.2.1 e.2.2).1.parent a
          = rootOf (st.1.union e.2.1 e.2.2).1.parent b ↔ _
      rw [union_false_rootOf st.1 hwf e.2.1 e.2.2 hu' a,
        union_false_rootOf st.1 hwf e.2.1 e.2.2 hu' b]
      exact hiff a b
    · show st.2.2.length + numRoots (st.1.union e.2.1 e.2.2).1.parent = n
      rw [union_false_numRoots st.1 hwf e.2.1 e.2.2 hu']
      exact hcount

theorem forestStep_edges (st : ForestState n) (e : ScoredPair n) :
    (forestStep st e).2.2 = st.2.2 ∨ (forestStep st e).2.2 = st.2.2 ++ [e] := by
  by_cases hu : (st.1.union e.2.1 e.2.2).2 = true
  · rw [forestStep_eq_of_true st e hu]
    exact Or.inr rfl
  · have hu' : (st.1.union e.2.1 e.2.2).2 = false := by
      revert hu
      cases (st.1.union e.2.1 e.2.2).2 <;> simp
    rw [forestStep_eq_of_false st e hu']
    exact Or.inl rfl

/-- Processing a descending-sorted tail of scores keeps the invariant,
only appends edges, accepts edges only from the input, and leaves every
rejected pair connected by a walk of at-least-as-heavy accepted edges. -/
theorem forest_fold_spec :
    ∀ (l : List (ScoredPair n)) (st : ForestState n),
      ForestInv st →
      (∀ e' ∈ st.2.2, ∀ f ∈ l, f.1 ≤ e'.1) →
      List.Pairwise (fun a b : ScoredPair n => b.1 ≤ a.1) l →
      ForestInv (l.foldl forestStep st) ∧
      (∃ t, (l.foldl forestStep st).2.2 = st.2.2 ++ t) ∧
      (∀ e' ∈ (l.foldl forestStep st).2.2, e' ∈ st.2.2 ∨ e' ∈ l) ∧
      (∀ e ∈ l, (∀ e' ∈ (l.foldl forestStep st).2.2, ¬ samePair e e') →
        ∃ q : (forestGraph (l.foldl forestStep st).2.2).Walk e.2.1 e.2.2,
          ∀ ed ∈ q.edges, ∃ e' ∈ (l.foldl forestStep st).2.2,
            ed = s(e'.2.1, e'.2.2) ∧ e.1 ≤ e'.1) := by
  intro l
  induction l with
  | nil =>
    intro st hinv _ _
    refine ⟨hinv, ⟨[], by simp⟩, ?_, ?_⟩
    · intro e' he'
      exact Or.inl he'
    · intro e he
      exact absurd he (List.not_mem_nil e)
  | cons e l ih =>
    intro st hinv hbound hpair
    have hinv' : ForestInv (forestStep st e) := forestStep_inv st e hinv
    have hpc := List.pairwise_cons.mp hpair
    have hbound' : ∀ e' ∈ (forestStep st e).2.2, ∀ f ∈ l, f.1 ≤ e'.1 := by
      intro e' he' f hf
      rcases forestStep_edges st e with hst | hst
      · rw [hst] at he'
        exact hbound e' he' f (List.mem_cons_of_mem e hf)
      · rw [hst] at he'
        rcases List.mem_append.mp he' with h | h
        · exact hbound e' h f (List.mem_cons_of_mem e hf)
        · rw [List.mem_singleton] at h
          subst h
          exact hpc.1 f hf
    obtain ⟨hinvr, ⟨t', hext⟩, hfrom, hdom⟩ := ih (forestStep st e) hinv' hbound' hpc.2
    have hres : (List.foldl forestStep st (e :: l)) = (l.foldl forestStep (forestStep st e)) := rfl
    rw [hres]
    refine ⟨hinvr, ?_, ?_, ?_⟩
    · rcases forestStep_edges st e with hst | hst
      · rw [hst] at hext
        exact ⟨t', hext⟩
      · rw [hst] at hext
        refine ⟨[e] ++ t', ?_⟩
        rw [hext, List.append_assoc]
    · intro e' he'
      rcases hfrom e' he' with h | h
      · rcases forestStep_edges st e with hst | hst
        · rw [hst] at h
          exact Or.inl h
        · rw [hst] at h
          rcases List.mem_append.mp h with hh | hh
          · exact Or.inl hh
          · rw [List.mem_singleton] at hh
            subst hh
            exact Or.inr (List.mem_cons_self e' l)
      · exact Or.inr (List.mem_cons_of_mem e h)
    · intro f hf hnotin
      rcases List.mem_cons.mp hf with hfe | hfl
      · subst hfe
        by_cases hu : (st.1.union f.2.1 f.2.2).2 = true
        · exfalso
          have hmem : f ∈ (l.foldl forestStep (forestStep st f)).2.2 := by
            rw [hext]
            apply List.mem_append_left
            rw [forestStep_eq_of_true st f hu]
            exact List.mem_append_right _ (List.mem_singleton_self f)
          exact hnotin f hmem (Or.inl ⟨rfl, rfl⟩)
        · have hu' : (st.1.union f.2.1 f.2.2).2 = false := by
            revert hu
            cases (st.1.union f.2.1 f.2.2).2 <;> simp
          have hroots : rootOf st.1.parent f.2.1 = rootOf st.1.parent f.2.2 :=
            (union_false_iff st.1 hinv.1 f.2.1 f.2.2).mp hu'
          have hreach : (forestGraph st.2.2).Reachable f.2.1 f.2.2 :=
            (hinv.2.1 f.2.1 f.2.2).mp hroots
          obtain ⟨w⟩ := hreach
          have hedges : (l.foldl forestStep (forestStep st f)).2.2
              = st.2.2 ++ (if (st.1.union f.2.1 f.2.2).2 then [f] else []) ++ t' := by
            rw [hext, forestStep_eq_of_false st f hu', hu']
            simp
          have hsub : ∀ ed ∈ w.edges,
              ed ∈ (forestGraph (l.foldl forestStep (forestStep st f)).2.2).edgeSet := by
            intro ed hed
            have h1 : ed ∈ (forestGraph st.2.2).edgeSet := w.edges_subset_edgeSet hed
            rw [hedges, hu']
            simp only [if_false, List.append_nil, Bool.false_eq_true]
            exact SimpleGraph.edgeSet_mono (forestGraph_mono st.2.2 t') h1
          refine ⟨w.transfer _ hsub, ?_⟩
          intro ed hed
          rw [SimpleGraph.Walk.edges_transfer] at hed
          have h1 : ed ∈ (forestGraph st.2.2).edgeSet := w.edges_subset_edgeSet hed
          obtain ⟨e', he', hede⟩ := forestGraph_edgeSet_mem st.2.2 ed h1
          refine ⟨e', ?_, hede, hbound e' he' f (List.mem_cons_self f l)⟩
          rw [hext]
          apply List.mem_append_left
          rw [forestStep_eq_of_false st f hu']
          exact he'
      · exact hdom f hfl hnotin

/-! ## The dependency graph builder

`main` walks the ids in ascending order; for each unvisited id it
enumerates its component by a breadth-first traversal, picks the root by
`min(component_node_ids, key=lambda nid: size)`, and runs a second
breadth-first traversal from the root recording each newly visited frame's
immediate predecessor in `dependencies_by_id`.

Both queues are modelled with explicit fuel; every iteration strictly
decreases `(n - #visited) + #queue`, so fuel `n` (an upper bound of that
measure at the call sites) always suffices, which keeps the definitions
structurally recursive and executable. -/

/-- The inner neighbour loop of the first BFS: each neighbour not yet in
`component_visited_ids` is added to it and appended to the queue. -/
def scan1 (nbrs : List (Fin n)) (cvis : Finset (Fin n)) (q : List (Fin n)) :
    Finset (Fin n) × List (Fin n) :=
  match nbrs with
  | [] => (cvis, q)
  | b :: bs =>
    if b ∈ cvis then scan1 bs cvis q
    else scan1 bs (insert b cvis) (q ++ [b])

/-- The first BFS (`component_node_ids` enumeration): pop the queue, record
the node, scan its neighbours. -/
def bfs1 (adj : Fin n → List (Fin n)) :
    Nat → Finset (Fin n) → List (Fin n) → List (Fin n) → List (Fin n)
  | _, _, [], acc => acc
  | 0, _, _ :: _, acc => acc
  | fuel+1, cvis, node :: q, acc =>
    bfs1 adj fuel (scan1 (adj node) cvis q).1 (scan1 (adj node) cvis q).2
      (acc ++ [node])

/-- The inner neighbour loop of the second BFS: each neighbour not yet in
`visited_ids` is added to it, gets `dependencies_by_id[child] = parent`,
and is appended to the queue. -/
def scan2 (par : Fin n) (nbrs : List (Fin n)) (vis : Finset (Fin n))
    (deps : Fin n → Option (Fin n)) (q : List (Fin n)) :
    Finset (Fin n) × (Fin n → Option (Fin n)) × List (Fin n) :=
  match nbrs with
  | [] => (vis, deps, q)
  | c :: cs =>
    if c ∈ vis then scan2 par cs vis deps q
    else scan2 par cs (insert c vis) (Function.update deps c (some par)) (q ++ [c])

/-- The second BFS (parent assignment from the chosen root). -/
def bfs2 (adj : Fin n → List (Fin n)) :
    Nat → Finset (Fin n) → (Fin n → Option (Fin n)) → List (Fin n) →
      Finset (Fin n) × (Fin n → Option (Fin n))
  | _, vis, deps, [] => (vis, deps)
  | 0, vis, deps, _ :: _ => (vis, deps)
  | fuel+1, vis, deps, node :: q =>
    bfs2 adj fuel (scan2 node (adj node) vis deps q).1
      (scan2 node (adj node) vis deps q).2.1
      (scan2 node (adj node) vis deps q).2.2

/-- Python's `min(l, key=size)`: the first element attaining the least
key (later elements replace the current best only on a strictly smaller
key).  `dflt` is returned for an empty list, which never happens here. -/
def minBySize (size : Fin n → Nat) (l : List (Fin n)) (dflt : Fin n) : Fin n :=
  match l with
  | [] => dflt
  | x :: xs => xs.foldl (fun best a => if size a < size best then a else best) x

/-- The accumulated outputs of the outer loop of the graph builder. -/
structure BuildState (n : Nat) where
  roots : List (Fin n)
  deps : Fin n → Option (Fin n)
  vis : Finset (Fin n)
  comps : List (List (Fin n))

/-- One iteration of the outer loop: skip visited ids, otherwise enumerate
the component, choose the root by on-disk size, and assign parents by a BFS
from the root. -/
def buildStep (adj : Fin n → List (Fin n)) (size : Fin n → Nat)
    (st : BuildState n) (i : Fin n) : BuildState n :=
  if i ∈ st.vis then st
  else
    let comp := bfs1 adj n {i} [i] []
    let r := minBySize size comp i
    let s2 := bfs2 adj n (insert r st.vis) st.deps [r]
    ⟨st.roots ++ [r], s2.2, s2.1, st.comps ++ [comp]⟩

/-- The whole dependency graph builder: iterate the ids in ascending order
(the iteration order of `id_to_path.keys()`). -/
def buildDeps (adj : Fin n → List (Fin n)) (size : Fin n → Nat) : BuildState n :=
  (List.finRange n).foldl (buildStep adj size) ⟨[], fun _ => none, ∅, []⟩

/-- `sorted(root_image_ids, key=int)`: the root list of the manifest. -/
def sortRoots (l : List (Fin n)) : List (Fin n) :=
  List.insertionSort (fun a b : Fin n => a.1 ≤ b.1) l

/-- One step of adjacency: `b` occurs in `a`'s neighbour list. -/
def adjRel (adj : Fin n → List (Fin n)) (a b : Fin n) : Prop := b ∈ adj a

/-- Graph reachability over the adjacency lists. -/
def ReachAdj (adj : Fin n → List (Fin n)) : Fin n → Fin n → Prop :=
  Relation.ReflTransGen (adjRel adj)

/-- A symmetric adjacency-list map. -/
def SymmAdj (adj : Fin n → List (Fin n)) : Prop :=
  ∀ a b : Fin n, b ∈ adj a → a ∈ adj b

theorem reachAdj_symm (hsym : SymmAdj adj) (h : ReachAdj adj a b) :
    ReachAdj adj b a := by
  induction h with
  | refl => exact Relation.ReflTransGen.refl
  | tail _hsteps hstep ih =>
    exact Relation.ReflTransGen.trans
      (Relation.ReflTransGen.single (hsym _ _ hstep)) ih

/-! ### The first BFS enumerates a component -/

theorem scan1_cvis_mem (nbrs : List (Fin n)) :
    ∀ (cvis : Finset (Fin n)) (q : List (Fin n)) (x : Fin n),
      x ∈ (scan1 nbrs cvis q).1 ↔ x ∈ cvis ∨ x ∈ nbrs := by
  induction nbrs with
  | nil =>
    intro cvis q x
    simp [scan1]
  | cons b bs ih =>
    intro cvis q x
    by_cases hb : b ∈ cvis
    · rw [show scan1 (b :: bs) cvis q = scan1 bs cvis q by simp [scan1, hb]]
      rw [ih cvis q x]
      constructor
      · rintro (h | h)
        · exact Or.inl h
        · exact Or.inr (List.mem_cons_of_mem b h)
      · rintro (h | h)
        · exact Or.inl h
        · rcases List.mem_cons.mp h with h1 | h1
          · subst h1
            exact Or.inl hb
          · exact Or.inr h1
    · rw [show scan1 (b :: bs) cvis q = scan1 bs (insert b cvis) (q ++ [b])
        by simp [scan1, hb]]
      rw [ih _ _ x, Finset.mem_insert]
      constructor
      · rintro ((h | h) | h)
        · rw [h]
          exact Or.inr (List.mem_cons_self b bs)
        · exact Or.inl h
        · exact Or.inr (List.mem_cons_of_mem b h)
      · rintro (h | h)
        · exact Or.inl (Or.inr h)
        · rcases List.mem_cons.mp h with h1 | h1
          · exact Or.inl (Or.inl h1)
          · exact Or.inr h1

theorem scan1_q_mem (nbrs : List (Fin n)) :
    ∀ (cvis : Finset (Fin n)) (q : List (Fin n)) (x : Fin n),
      x ∈ (scan1 nbrs cvis q).2 ↔ x ∈ q ∨ (x ∈ nbrs ∧ x ∉ cvis) := by
  induction nbrs with
  | nil =>
    intro cvis q x
    simp [scan1]
  | cons b bs ih =>
    intro cvis q x
    by_cases hb : b ∈ cvis
    · rw [show scan1 (b :: bs) cvis q = scan1 bs cvis q by simp [scan1, hb]]
      rw [ih cvis q x]
      constructor
      · rintro (h | ⟨h1, h2⟩)
        · exact Or.inl h
        · exact Or.inr ⟨List.mem_cons_of_mem b h1, h2⟩
      · rintro (h | ⟨h1, h2⟩)
        · exact Or.inl h
        · rcases List.mem_cons.mp h1 with h3 | h3
          · subst h3
            exact absurd hb h2
          · exact Or.inr ⟨h3, h2⟩
    · rw [show scan1 (b :: bs) cvis q = scan1 bs (insert b cvis) (q ++ [b])
        by simp [scan1, hb]]
      rw [ih _ _ x]
      constructor
      · rintro (h | ⟨h1, h2⟩)
        · rcases List.mem_append.mp h with h3 | h3
          · exact Or.inl h3
          · rw [List.mem_singleton] at h3
            subst h3
            exact Or.inr ⟨List.mem_cons_self x bs, hb⟩
        · rw [Finset.mem_insert] at h2
          push_neg at h2
          exact Or.inr ⟨List.mem_cons_of_mem b h1, h2.2⟩
      · rintro (h | ⟨h1, h2⟩)
        · exact Or.inl (List.mem_append_left _ h)
        · rcases List.mem_cons.mp h1 with h3 | h3
          · subst h3
            apply Or.inl
            apply List.mem_append_right
            exact List.mem_singleton_self x
          · by_cases hxb : x = b
            · subst hxb
              apply Or.inl
              apply List.mem_append_right
              exact List.mem_singleton_self x
            · refine Or.inr ⟨h3, ?_⟩
              rw [Finset.mem_insert]
              push_neg
              exact ⟨hxb, h2⟩

theorem scan1_measure (nbrs : List (Fin n)) :
    ∀ (cvis : Finset (Fin n)) (q : List (Fin n)),
      (n - (scan1 nbrs cvis q).1.card) + (scan1 nbrs cvis q).2.length
        = (n - cvis.card) + q.length := by
  induction nbrs with
  | nil =>
    intro cvis q
    simp [scan1]
  | cons b bs ih =>
    intro cvis q
    by_cases hb : b ∈ cvis
    · rw [show scan1 (b :: bs) cvis q = scan1 bs cvis q by simp [scan1, hb]]
      exact ih cvis q
    · rw [show scan1 (b :: bs) cvis q = scan1 bs (insert b cvis) (q ++ [b])
        by simp [scan1, hb]]
      rw [ih _ _]
      have hcard : (insert b cvis).card = cvis.card + 1 :=
        Finset.card_insert_of_not_mem hb
      have hle : (insert b cvis).card ≤ n := by
        have := Finset.card_le_univ (insert b cvis)
        rwa [Fintype.card_fin] at this
      rw [hcard, List.length_append, List.length_singleton]
      omega

theorem bfs1_nil (adj : Fin n → List (Fin n)) (fuel : Nat)
    (cvis : Finset (Fin n)) (acc : List (Fin n)) :
    bfs1 adj fuel cvis [] acc = acc := by
  cases fuel <;> rfl

theorem bfs1_succ (adj : Fin n → List (Fin n)) (fuel : Nat)
    (cvis : Finset (Fin n)) (node : Fin n) (q acc : List (Fin n)) :
    bfs1 adj (fuel+1) cvis (node :: q) acc =
      bfs1 adj fuel (scan1 (adj node) cvis q).1 (scan1 (adj node) cvis q).2
        (acc ++ [node]) := rfl

/-- Soundness of the first BFS: any property preserved by adjacency and
holding on the queue and accumulator holds on the whole output. -/
theorem bfs1_pred (adj : Fin n → List (Fin n)) (P : Fin n → Prop)
    (hstep : ∀ a, P a → ∀ b ∈ adj a, P b) :
    ∀ (fuel : Nat) (cvis : Finset (Fin n)) (q acc : List (Fin n)),
      (∀ x ∈ q, P x) → (∀ x ∈ acc, P x) →
      ∀ x ∈ bfs1 adj fuel cvis q acc, P x := by
  intro fuel
  induction fuel with
  | zero =>
    intro cvis q acc hq hacc x hx
    cases q with
    | nil =>
      rw [bfs1_nil] at hx
      exact hacc x hx
    | cons node q => exact hacc x hx
  | succ fuel ih =>
    intro cvis q acc hq hacc x hx
    cases q with
    | nil =>
      rw [bfs1_nil] at hx
      exact hacc x hx
    | cons node q =>
      rw [bfs1_succ] at hx
      refine ih _ _ _ ?_ ?_ x hx
      · intro y hy
        rw [scan1_q_mem] at hy
        rcases hy with h | ⟨h1, _⟩
        · exact hq y (List.mem_cons_of_mem node h)
        · exact hstep node (hq node (List.mem_cons_self node q)) y h1
      · intro y hy
        rcases List.mem_append.mp hy with h | h
        · exact hacc y h
        · rw [List.mem_singleton] at h
          subst h
          exact hq y (List.mem_cons_self y q)

/-- Completeness of the first BFS: with enough fuel, the output contains
the visited set and is closed under adjacency. -/
theorem bfs1_closure (adj : Fin n → List (Fin n)) :
    ∀ (fuel : Nat) (cvis : Finset (Fin n)) (q acc : List (Fin n)),
      (n - cvis.card) + q.length ≤ fuel →
      (∀ x : Fin n, x ∈ cvis ↔ x ∈ acc ∨ x ∈ q) →
      (∀ x ∈ cvis, x ∈ q ∨ ∀ b ∈ adj x, b ∈ cvis) →
      (∀ x ∈ cvis, x ∈ bfs1 adj fuel cvis q acc) ∧
      (∀ x ∈ bfs1 adj fuel cvis q acc, ∀ b ∈ adj x, b ∈ bfs1 adj fuel cvis q acc) := by
  intro fuel
  induction fuel with
  | zero =>
    intro cvis q acc hfuel hI hfront
    cases q with
    | nil =>
      rw [bfs1_nil]
      constructor
      · intro x hx
        rcases (hI x).mp hx with h | h
        · exact h
        · exact absurd h (List.not_mem_nil x)
      · intro x hx b hb
        have hxc : x ∈ cvis := (hI x).mpr (Or.inl hx)
        rcases hfront x hxc with h | h
        · exact absurd h (List.not_mem_nil x)
        · have := h b hb
          rcases (hI b).mp this with h1 | h1
          · exact h1
          · exact absurd h1 (List.not_mem_nil b)
    | cons node q =>
      exfalso
      simp only [List.length_cons] at hfuel
      omega
  | succ fuel ih =>
    intro cvis q acc hfuel hI hfront
    cases q with
    | nil =>
      rw [bfs1_nil]
      constructor
      · intro x hx
        rcases (hI x).mp hx with h | h
        · exact h
        · exact absurd h (List.not_mem_nil x)
      · intro x hx b hb
        have hxc : x ∈ cvis := (hI x).mpr (Or.inl hx)
        rcases hfront x hxc with h | h
        · exact absurd h (List.not_mem_nil x)
        · have := h b hb
          rcases (hI b).mp this with h1 | h1
          · exact h1
          · exact absurd h1 (List.not_mem_nil b)
    | cons node q =>
      rw [bfs1_succ]
      have hnodec : node ∈ cvis := (hI node).mpr (Or.inr (List.mem_cons_self node q))
      have hfuel' : (n - (scan1 (adj node) cvis q).1.card)
          + (scan1 (adj node) cvis q).2.length ≤ fuel := by
        rw [scan1_measure]
        simp only [List.length_cons] at hfuel
        have hcle : cvis.card ≤ n := by
          have := Finset.card_le_univ cvis
          rwa [Fintype.card_fin] at this
        have h1 : 0 < cvis.card := Finset.card_pos.mpr ⟨node, hnodec⟩
        omega
      have hI' : ∀ x : Fin n, x ∈ (scan1 (adj node) cvis q).1 ↔
          x ∈ acc ++ [node] ∨ x ∈ (scan1 (adj node) cvis q).2 := by
        intro x
        rw [scan1_cvis_mem, scan1_q_mem]
        constructor
        · rintro (h | h)
          · rcases (hI x).mp h with h1 | h1
            · exact Or.inl (List.mem_append_left _ h1)
            · rcases List.mem_cons.mp h1 with h2 | h2
              · subst h2
                exact Or.inl (List.mem_append_right _ (List.mem_singleton_self x))
              · exact Or.inr (Or.inl h2)
          · by_cases hc : x ∈ cvis
            · rcases (hI x).mp hc with h1 | h1
              · exact Or.inl (List.mem_append_left _ h1)
              · rcases List.mem_cons.mp h1 with h2 | h2
                · subst h2
                  exact Or.inl (List.mem_append_right _ (List.mem_singleton_self x))
                · exact Or.inr (Or.inl h2)
            · exact Or.inr (Or.inr ⟨h, hc⟩)
        · rintro (h | (h | ⟨h1, _⟩))
          · rcases List.mem_append.mp h with h1 | h1
            · exact Or.inl ((hI x).mpr (Or.inl h1))
            · rw [List.mem_singleton] at h1
              subst h1
              exact Or.inl hnodec
          · exact Or.inl ((hI x).mpr (Or.inr (List.mem_cons_of_mem node h)))
          · exact Or.inr h1
      have hfront' : ∀ x ∈ (scan1 (adj node) cvis q).1,
          x ∈ (scan1 (adj node) cvis q).2 ∨
            ∀ b ∈ adj x, b ∈ (scan1 (adj node) cvis q).1 := by
        intro x hx
        rw [scan1_cvis_mem] at hx
        rcases hx with hc | hnb
        · rcases hfront x hc with hq | hcl
          · rcases List.mem_cons.mp hq with h1 | h1
            · subst h1
              refine Or.inr ?_
              intro b hb
              rw [scan1_cvis_mem]
              exact Or.inr hb
            · refine Or.inl ?_
              rw [scan1_q_mem]
              exact Or.inl h1
          · refine Or.inr ?_
            intro b hb
            rw [scan1_cvis_mem]
            exact Or.inl (hcl b hb)
        · by_cases hc : x ∈ cvis
          · rcases hfront x hc with hq | hcl
            · rcases List.mem_cons.mp hq with h1 | h1
              · subst h1
                refine Or.inr ?_
                intro b hb
                rw [scan1_cvis_mem]
                exact Or.inr hb
              · refine Or.inl ?_
                rw [scan1_q_mem]
                exact Or.inl h1
            · refine Or.inr ?_
              intro b hb
              rw [scan1_cvis_mem]
              exact Or.inl (hcl b hb)
          · refine Or.inl ?_
            rw [scan1_q_mem]
            exact Or.inr ⟨hnb, hc⟩
      obtain ⟨c1, c2⟩ := ih _ _ _ hfuel' hI' hfront'
      refine ⟨?_, c2⟩
      intro x hx
      apply c1
      rw [scan1_cvis_mem]
      exact Or.inl hx

/-! ### `min(component, key=size)` -/

theorem minFold_spec (size : Fin n → Nat) :
    ∀ (xs : List (Fin n)) (best : Fin n),
      (xs.foldl (fun best a => if size a < size best then a else best) best = best ∨
        xs.foldl (fun best a => if size a < size best then a else best) best ∈ xs) ∧
      size (xs.foldl (fun best a => if size a < size best then a else best) best)
        ≤ size best ∧
      (∀ a ∈ xs,
        size (xs.foldl (fun best a => if size a < size best then a else best) best)
          ≤ size a) := by
  intro xs
  induction xs with
  | nil =>
    intro best
    refine ⟨Or.inl rfl, le_refl _, ?_⟩
    intro a ha
    exact absurd ha (List.not_mem_nil a)
  | cons a xs ih =>
    intro best
    have hstep : (a :: xs).foldl (fun best a => if size a < size best then a else best) best
        = xs.foldl (fun best a => if size a < size best then a else best)
          (if size a < size best then a else best) := rfl
    obtain ⟨hmem, hle, hall⟩ := ih (if size a < size best then a else best)
    rw [hstep]
    have hbest' : size (if size a < size best then a else best) ≤ size best := by
      by_cases h : size a < size best
      · rw [if_pos h]
        omega
      · rw [if_neg h]
    have hbesta : size (if size a < size best then a else best) ≤ size a := by
      by_cases h : size a < size best
      · rw [if_pos h]
      · rw [if_neg h]
        omega
    refine ⟨?_, le_trans hle hbest', ?_⟩
    · rcases hmem with h | h
      · rw [h]
        by_cases hc : size a < size best
        · rw [if_pos hc]
          exact Or.inr (List.mem_cons_self a xs)
        · rw [if_neg hc]
          exact Or.inl rfl
      · exact Or.inr (List.mem_cons_of_mem a h)
    · intro b hb
      rcases List.mem_cons.mp hb with h | h
      · subst h
        exact le_trans hle hbesta
      · exact hall b h

theorem minBySize_cons (size : Fin n → Nat) (x : Fin n) (xs : List (Fin n))
    (dflt : Fin n) :
    minBySize size (x :: xs) dflt
      = xs.foldl (fun best a => if size a < size best then a else best) x := rfl

theorem minBySize_mem (size : Fin n → Nat) (x : Fin n) (xs : List (Fin n))
    (dflt : Fin n) : minBySize size (x :: xs) dflt ∈ x :: xs := by
  rw [minBySize_cons]
  rcases (minFold_spec size xs x).1 with h | h
  · rw [h]
    exact List.mem_cons_self x xs
  · exact List.mem_cons_of_mem x h

theorem minBySize_min (size : Fin n → Nat) (x : Fin n) (xs : List (Fin n))
    (dflt : Fin n) :
    ∀ a ∈ x :: xs, size (minBySize size (x :: xs) dflt) ≤ size a := by
  intro a ha
  rw [minBySize_cons]
  rcases List.mem_cons.mp ha with h | h
  · rw [h]
    exact (minFold_spec size xs x).2.1
  · exact (minFold_spec size xs x).2.2 a h

/-! ### The second BFS assigns parents -/

theorem scan2_vis_mem (par : Fin n) (nbrs : List (Fin n)) :
    ∀ (vis : Finset (Fin n)) (deps : Fin n → Option (Fin n))
      (q : List (Fin n)) (x : Fin n),
      x ∈ (scan2 par nbrs vis deps q).1 ↔ x ∈ vis ∨ x ∈ nbrs := by
  induction nbrs with
  | nil =>
    intro vis deps q x
    simp [scan2]
  | cons c cs ih =>
    intro vis deps q x
    by_cases hc : c ∈ vis
    · rw [show scan2 par (c :: cs) vis deps q = scan2 par cs vis deps q
        by simp [scan2, hc]]
      rw [ih vis deps q x]
      constructor
      · rintro (h | h)
        · exact Or.inl h
        · exact Or.inr (List.mem_cons_of_mem c h)
      · rintro (h | h)
        · exact Or.inl h
        · rcases List.mem_cons.mp h with h1 | h1
          · rw [h1]
            exact Or.inl hc
          · exact Or.inr h1
    · rw [show scan2 par (c :: cs) vis deps q
          = scan2 par cs (insert c vis) (Function.update deps c (some par)) (q ++ [c])
        by simp [scan2, hc]]
      rw [ih _ _ _ x, Finset.mem_insert]
      constructor
      · rintro ((h | h) | h)
        · rw [h]
          exact Or.inr (List.mem_cons_self c cs)
        · exact Or.inl h
        · exact Or.inr (List.mem_cons_of_mem c h)
      · rintro (h | h)
        · exact Or.inl (Or.inr h)
        · rcases List.mem_cons.mp h with h1 | h1
          · exact Or.inl (Or.inl h1)
          · exact Or.inr h1

theorem scan2_q_mem (par : Fin n) (nbrs : List (Fin n)) :
    ∀ (vis : Finset (Fin n)) (deps : Fin n → Option (Fin n))
      (q : List (Fin n)) (x : Fin n),
      x ∈ (scan2 par nbrs vis deps q).2.2 ↔ x ∈ q ∨ (x ∈ nbrs ∧ x ∉ vis) := by
  induction nbrs with
  | nil =>
    intro vis deps q x
    simp [scan2]
  | cons c cs ih =>
    intro vis deps q x
    by_cases hc : c ∈ vis
    · rw [show scan2 par (c :: cs) vis deps q = scan2 par cs vis deps q
        by simp [scan2, hc]]
      rw [ih vis deps q x]
      constructor
      · rintro (h | ⟨h1, h2⟩)
        · exact Or.inl h
        · exact Or.inr ⟨List.mem_cons_of_mem c h1, h2⟩
      · rintro (h | ⟨h1, h2⟩)
        · exact Or.inl h
        · rcases List.mem_cons.mp h1 with h3 | h3
          · rw [h3] at h2
            exact absurd hc h2
          · exact Or.inr ⟨h3, h2⟩
    · rw [show scan2 par (c :: cs) vis deps q
          = scan2 par cs (insert c vis) (Function.update deps c (some par)) (q ++ [c])
        by simp [scan2, hc]]
      rw [ih _ _ _ x]
      constructor
      · rintro (h | ⟨h1, h2⟩)
        · rcases List.mem_append.mp h with h3 | h3
          · exact Or.inl h3
          · rw [List.mem_singleton] at h3
            rw [h3]
            exact Or.inr ⟨List.mem_cons_self c cs, hc⟩
        · rw [Finset.mem_insert] at h2
          push_neg at h2
          exact Or.inr ⟨List.mem_cons_of_mem c h1, h2.2⟩
      · rintro (h | ⟨h1, h2⟩)
        · exact Or.inl (List.mem_append_left _ h)
        · rcases List.mem_cons.mp h1 with h3 | h3
          · rw [h3]
            apply Or.inl
            apply List.mem_append_right
            exact List.mem_singleton_self c
          · by_cases hxc : x = c
            · rw [hxc]
              apply Or.inl
              apply List.mem_append_right
              exact List.mem_singleton_self c
            · refine Or.inr ⟨h3, ?_⟩
              rw [Finset.mem_insert]
              push_neg
              exact ⟨hxc, h2⟩

theorem scan2_deps (par : Fin n) (nbrs : List (Fin n)) :
    ∀ (vis : Finset (Fin n)) (deps : Fin n → Option (Fin n))
      (q : List (Fin n)) (x : Fin n),
      (scan2 par nbrs vis deps q).2.1 x
        = if x ∈ nbrs ∧ x ∉ vis then some par else deps x := by
  induction nbrs with
  | nil =>
    intro vis deps q x
    simp [scan2]
  | cons c cs ih =>
    intro vis deps q x
    by_cases hc : c ∈ vis
    · rw [show scan2 par (c :: cs) vis deps q = scan2 par cs vis deps q
        by simp [scan2, hc]]
      rw [ih vis deps q x]
      by_cases h1 : x ∈ cs ∧ x ∉ vis
      · rw [if_pos h1, if_pos ⟨List.mem_cons_of_mem c h1.1, h1.2⟩]
      · rw [if_neg h1]
        by_cases h2 : x ∈ c :: cs ∧ x ∉ vis
        · exfalso
          rcases List.mem_cons.mp h2.1 with h3 | h3
          · rw [h3] at h2
            exact h2.2 hc
          · exact h1 ⟨h3, h2.2⟩
        · rw [if_neg h2]
    · rw [show scan2 par (c :: cs) vis deps q
          = scan2 par cs (insert c vis) (Function.update deps c (some par)) (q ++ [c])
        by simp [scan2, hc]]
      rw [ih _ _ _ x]
      by_cases hxc : x = c
      · subst hxc
        have h1 : ¬ (x ∈ cs ∧ x ∉ insert x vis) := by
          rintro ⟨_, h2⟩
          exact h2 (Finset.mem_insert_self x vis)
        rw [if_neg h1, Function.update_same,
          if_pos ⟨List.mem_cons_self x cs, hc⟩]
      · rw [Function.update_noteq hxc]
        by_cases h1 : x ∈ cs ∧ x ∉ vis
        · have h2 : x ∈ cs ∧ x ∉ insert c vis := by
            refine ⟨h1.1, ?_⟩
            rw [Finset.mem_insert]
            push_neg
            exact ⟨hxc, h1.2⟩
          rw [if_pos h2, if_pos ⟨List.mem_cons_of_mem c h1.1, h1.2⟩]
        · have h2 : ¬ (x ∈ cs ∧ x ∉ insert c vis) := by
            rintro ⟨h3, h4⟩
            rw [Finset.mem_insert] at h4
            push_neg at h4
            exact h1 ⟨h3, h4.2⟩
          rw [if_neg h2]
          have h3 : ¬ (x ∈ c :: cs ∧ x ∉ vis) := by
            rintro ⟨h4, h5⟩
            rcases List.mem_cons.mp h4 with h6 | h6
            · exact hxc h6
            · exact h1 ⟨h6, h5⟩
          rw [if_neg h3]

theorem scan2_measure (par : Fin n) (nbrs : List (Fin n)) :
    ∀ (vis : Finset (Fin n)) (deps : Fin n → Option (Fin n)) (q : List (Fin n)),
      (n - (scan2 par nbrs vis deps q).1.card)
          + (scan2 par nbrs vis deps q).2.2.length
        = (n - vis.card) + q.length := by
  induction nbrs with
  | nil =>
    intro vis deps q
    simp [scan2]
  | cons c cs ih =>
    intro vis deps q
    by_cases hc : c ∈ vis
    · rw [show scan2 par (c :: cs) vis deps q = scan2 par cs vis deps q
        by simp [scan2, hc]]
      exact ih vis deps q
    · rw [show scan2 par (c :: cs) vis deps q
          = scan2 par cs (insert c vis) (Function.update deps c (some par)) (q ++ [c])
        by simp [scan2, hc]]
      rw [ih _ _ _]
      have hcard : (insert c vis).card = vis.card + 1 :=
        Finset.card_insert_of_not_mem hc
      have hle : (insert c vis).card ≤ n := by
        have := Finset.card_le_univ (insert c vis)
        rwa [Fintype.card_fin] at this
      rw [hcard, List.length_append, List.length_singleton]
      omega

theorem bfs2_nil (adj : Fin n → List (Fin n)) (fuel : Nat)
    (vis : Finset (Fin n)) (deps : Fin n → Option (Fin n)) :
    bfs2 adj fuel vis deps [] = (vis, deps) := by
  cases fuel <;> rfl

theorem bfs2_succ (adj : Fin n → List (Fin n)) (fuel : Nat)
    (vis : Finset (Fin n)) (deps : Fin n → Option (Fin n)) (node : Fin n)
    (q : List (Fin n)) :
    bfs2 adj (fuel+1) vis deps (node :: q) =
      bfs2 adj fuel (scan2 node (adj node) vis deps q).1
        (scan2 node (adj node) vis deps q).2.1
        (scan2 node (adj node) vis deps q).2.2 := rfl

/-- The full specification of the parent-assigning BFS.  With enough fuel:
the visited set only grows; previously visited frames keep their entries;
every entry points at a visited parent adjacent to its child; every newly
visited frame gets an entry; some measure strictly decreases along the
parent links (children are discovered strictly after their parents); the
final visited set is closed under adjacency. -/
theorem bfs2_spec (adj : Fin n → List (Fin n)) :
    ∀ (fuel : Nat) (vis : Finset (Fin n)) (deps : Fin n → Option (Fin n))
      (q : List (Fin n)) (f : Fin n → Nat) (ctr : Nat),
      (n - vis.card) + q.length ≤ fuel →
      (∀ x ∈ q, x ∈ vis) →
      (∀ x ∈ vis, x ∈ q ∨ ∀ b ∈ adj x, b ∈ vis) →
      (∀ c p', deps c = some p' → c ∈ vis ∧ p' ∈ vis ∧ c ∈ adj p') →
      (∀ c p', deps c = some p' → f p' < f c) →
      (∀ x ∈ q, f x < ctr) →
      (∀ x ∈ vis, x ∈ (bfs2 adj fuel vis deps q).1) ∧
      (∀ x ∈ vis, (bfs2 adj fuel vis deps q).2 x = deps x) ∧
      (∀ c p', (bfs2 adj fuel vis deps q).2 c = some p' →
        c ∈ (bfs2 adj fuel vis deps q).1 ∧ p' ∈ (bfs2 adj fuel vis deps q).1 ∧
        c ∈ adj p') ∧
      (∀ x ∈ (bfs2 adj fuel vis deps q).1, x ∈ vis ∨
        (bfs2 adj fuel vis deps q).2 x ≠ none) ∧
      (∃ f' : Fin n → Nat, ∀ c p',
        (bfs2 adj fuel vis deps q).2 c = some p' → f' p' < f' c) ∧
      (∀ x ∈ (bfs2 adj fuel vis deps q).1, ∀ b ∈ adj x,
        b ∈ (bfs2 adj fuel vis deps q).1) := by
  intro fuel
  induction fuel with
  | zero =>
    intro vis deps q f ctr hfuel hq hfront hkeys hdec hqf
    cases q with
    | nil =>
      rw [bfs2_nil]
      refine ⟨fun x hx => hx, fun x _ => rfl, ?_, ?_, ⟨f, hdec⟩, ?_⟩
      · intro c p' hc
        exact hkeys c p' hc
      · intro x hx
        exact Or.inl hx
      · intro x hx b hb
        rcases hfront x hx with h | h
        · exact absurd h (List.not_mem_nil x)
        · exact h b hb
    | cons node q =>
      exfalso
      simp only [List.length_cons] at hfuel
      omega
  | succ fuel ih =>
    intro vis deps q f ctr hfuel hq hfront hkeys hdec hqf
    cases q with
    | nil =>
      rw [bfs2_nil]
      refine ⟨fun x hx => hx, fun x _ => rfl, ?_, ?_, ⟨f, hdec⟩, ?_⟩
      · intro c p' hc
        exact hkeys c p' hc
      · intro x hx
        exact Or.inl hx
      · intro x hx b hb
        rcases hfront x hx with h | h
        · exact absurd h (List.not_mem_nil x)
        · exact h b hb
    | cons node q =>
      rw [bfs2_succ]
      have hnodev : node ∈ vis := hq node (List.mem_cons_self node q)
      set vis1 := (scan2 node (adj node) vis deps q).1 with hvis1
      set deps1 := (scan2 node (adj node) vis deps q).2.1 with hdeps1
      set q1 := (scan2 node (adj node) vis deps q).2.2 with hq1
      have hvm : ∀ x : Fin n, x ∈ vis1 ↔ x ∈ vis ∨ x ∈ adj node :=
        scan2_vis_mem node (adj node) vis deps q
      have hqm : ∀ x : Fin n, x ∈ q1 ↔ x ∈ q ∨ (x ∈ adj node ∧ x ∉ vis) :=
        scan2_q_mem node (adj node) vis deps q
      have hdm : ∀ x : Fin n, deps1 x
          = if x ∈ adj node ∧ x ∉ vis then some node else deps x :=
        scan2_deps node (adj node) vis deps q
      have hfuel1 : (n - vis1.card) + q1.length ≤ fuel := by
        have := scan2_measure node (adj node) vis deps q
        rw [← hvis1, ← hq1] at this
        simp only [List.length_cons] at hfuel
        have h1 : 0 < vis.card := Finset.card_pos.mpr ⟨node, hnodev⟩
        have hcle : vis.card ≤ n := by
          have := Finset.card_le_univ vis
          rwa [Fintype.card_fin] at this
        omega
      have hq' : ∀ x ∈ q1, x ∈ vis1 := by
        intro x hx
        rcases (hqm x).mp hx with h | ⟨h1, _⟩
        · exact (hvm x).mpr (Or.inl (hq x (List.mem_cons_of_mem node h)))
        · exact (hvm x).mpr (Or.inr h1)
      have hfront' : ∀ x ∈ vis1, x ∈ q1 ∨ ∀ b ∈ adj x, b ∈ vis1 := by
        intro x hx
        rcases (hvm x).mp hx with hc | hnb
        · rcases hfront x hc with hqq | hcl
          · rcases List.mem_cons.mp hqq with h1 | h1
            · refine Or.inr ?_
              intro b hb
              rw [h1] at hb
              exact (hvm b).mpr (Or.inr hb)
            · exact Or.inl ((hqm x).mpr (Or.inl h1))
          · refine Or.inr ?_
            intro b hb
            exact (hvm b).mpr (Or.inl (hcl b hb))
        · by_cases hc : x ∈ vis
          · rcases hfront x hc with hqq | hcl
            · rcases List.mem_cons.mp hqq with h1 | h1
              · refine Or.inr ?_
                intro b hb
                rw [h1] at hb
                exact (hvm b).mpr (Or.inr hb)
              · exact Or.inl ((hqm x).mpr (Or.inl h1))
            · refine Or.inr ?_
              intro b hb
              exact (hvm b).mpr (Or.inl (hcl b hb))
          · exact Or.inl ((hqm x).mpr (Or.inr ⟨hnb, hc⟩))
      have hkeys' : ∀ c p', deps1 c = some p' → c ∈ vis1 ∧ p' ∈ vis1 ∧ c ∈ adj p' := by
        intro c p' hc
        rw [hdm c] at hc
        by_cases h1 : c ∈ adj node ∧ c ∉ vis
        · rw [if_pos h1] at hc
          have hp : p' = node := by
            injection hc with hc'
            exact hc'.symm
          rw [hp]
          exact ⟨(hvm c).mpr (Or.inr h1.1), (hvm node).mpr (Or.inl hnodev), h1.1⟩
        · rw [if_neg h1] at hc
          obtain ⟨hk1, hk2, hk3⟩ := hkeys c p' hc
          exact ⟨(hvm c).mpr (Or.inl hk1), (hvm p').mpr (Or.inl hk2), hk3⟩
      have hdec' : ∀ c p', deps1 c = some p' →
          (fun x => if x ∈ adj node ∧ x ∉ vis then ctr else f x) p'
            < (fun x => if x ∈ adj node ∧ x ∉ vis then ctr else f x) c := by
        intro c p' hc
        rw [hdm c] at hc
        by_cases h1 : c ∈ adj node ∧ c ∉ vis
        · rw [if_pos h1] at hc
          have hp : p' = node := by
            injection hc with hc'
            exact hc'.symm
          rw [hp]
          simp only []
          have hnv : ¬ (node ∈ adj node ∧ node ∉ vis) := by
            rintro ⟨_, h2⟩
            exact h2 hnodev
          rw [if_neg hnv, if_pos h1]
          exact hqf node (List.mem_cons_self node q)
        · rw [if_neg h1] at hc
          obtain ⟨hk1, hk2, _⟩ := hkeys c p' hc
          have hnc : ¬ (c ∈ adj node ∧ c ∉ vis) := by
            rintro ⟨_, h2⟩
            exact h2 hk1
          have hnp : ¬ (p' ∈ adj node ∧ p' ∉ vis) := by
            rintro ⟨_, h2⟩
            exact h2 hk2
          simp only []
          rw [if_neg hnc, if_neg hnp]
          exact hdec c p' hc
      have hqf' : ∀ x ∈ q1,
          (fun x => if x ∈ adj node ∧ x ∉ vis then ctr else f x) x < ctr + 1 := by
        intro x hx
        simp only []
        by_cases h1 : x ∈ adj node ∧ x ∉ vis
        · rw [if_pos h1]
          omega
        · rw [if_neg h1]
          rcases (hqm x).mp hx with h | h
          · have := hqf x (List.mem_cons_of_mem node h)
            omega
          · exact absurd h h1
      obtain ⟨o1, o2, o3, o4, o5, o6⟩ :=
        ih vis1 deps1 q1 (fun x => if x ∈ adj node ∧ x ∉ vis then ctr else f x)
          (ctr + 1) hfuel1 hq' hfront' hkeys' hdec' hqf'
      refine ⟨?_, ?_, o3, ?_, o5, o6⟩
      · intro x hx
        exact o1 x ((hvm x).mpr (Or.inl hx))
      · intro x hx
        rw [o2 x ((hvm x).mpr (Or.inl hx)), hdm x, if_neg]
        rintro ⟨_, h2⟩
        exact h2 hx
      · intro x hx
        rcases o4 x hx with h | h
        · rcases (hvm x).mp h with h1 | h1
          · exact Or.inl h1
          · by_cases hc : x ∈ vis
            · exact Or.inl hc
            · refine Or.inr ?_
              rw [o2 x h, hdm x, if_pos ⟨h1, hc⟩]
              exact Option.some_ne_none node
        · exact Or.inr h

/-! ### The outer loop of the graph builder -/

theorem minBySize_mem_of_ne_nil (size : Fin n → Nat) (l : List (Fin n))
    (dflt : Fin n) (h : l ≠ []) : minBySize size l dflt ∈ l := by
  cases l with
  | nil => exact absurd rfl h
  | cons x xs => exact minBySize_mem size x xs dflt

theorem minBySize_min_all (size : Fin n → Nat) (l : List (Fin n))
    (dflt : Fin n) : ∀ a ∈ l, size (minBySize size l dflt) ≤ size a := by
  cases l with
  | nil =>
    intro a ha
    exact absurd ha (List.not_mem_nil a)
  | cons x xs => exact minBySize_min size x xs dflt

/-- Walking from a member of an adjacency-closed set stays inside it. -/
theorem reachAdj_mem_of_closed (adj : Fin n → List (Fin n))
    (V : Finset (Fin n)) (hclosed : ∀ x ∈ V, ∀ b ∈ adj x, b ∈ V)
    {a b : Fin n} (h : ReachAdj adj a b) (ha : a ∈ V) : b ∈ V := by
  induction h with
  | refl => exact ha
  | tail _hsteps hstep ih => exact hclosed _ ih _ hstep

/-- With a symmetric adjacency, a walk reaching into an adjacency-closed
set must have started inside it. -/
theorem reachAdj_start_mem_of_closed (adj : Fin n → List (Fin n))
    (hsym : SymmAdj adj) (V : Finset (Fin n))
    (hclosed : ∀ x ∈ V, ∀ b ∈ adj x, b ∈ V)
    {a b : Fin n} (h : ReachAdj adj a b) (hb : b ∈ V) : a ∈ V :=
  reachAdj_mem_of_closed adj V hclosed (reachAdj_symm hsym h) hb

/-- The outer-loop invariant of the dependency graph builder. -/
def OuterInv (adj : Fin n → List (Fin n)) (size : Fin n → Nat)
    (st : BuildState n) : Prop :=
  (∀ x ∈ st.vis, ∀ b ∈ adj x, b ∈ st.vis) ∧
  (∀ c p', st.deps c = some p' → c ∈ st.vis ∧ p' ∈ st.vis ∧ c ∈ adj p') ∧
  (∃ f : Fin n → Nat, ∀ c p', st.deps c = some p' → f p' < f c) ∧
  (∀ x ∈ st.vis, x ∈ st.roots ∨ st.deps x ≠ none) ∧
  (∀ rt ∈ st.roots, st.deps rt = none) ∧
  (∀ rt ∈ st.roots, rt ∈ st.vis) ∧
  st.roots.length = st.comps.length ∧
  (∀ pr ∈ st.roots.zip st.comps, pr.1 ∈ pr.2 ∧ ∀ x ∈ pr.2, size pr.1 ≤ size x)

theorem buildStep_eq_of_mem (adj : Fin n → List (Fin n)) (size : Fin n → Nat)
    (st : BuildState n) (i : Fin n) (h : i ∈ st.vis) :
    buildStep adj size st i = st := by
  simp [buildStep, h]

theorem buildStep_eq_of_not_mem (adj : Fin n → List (Fin n)) (size : Fin n → Nat)
    (st : BuildState n) (i : Fin n) (h : i ∉ st.vis) :
    buildStep adj size st i =
      ⟨st.roots ++ [minBySize size (bfs1 adj n {i} [i] []) i],
        (bfs2 adj n (insert (minBySize size (bfs1 adj n {i} [i] []) i) st.vis)
          st.deps [minBySize size (bfs1 adj n {i} [i] []) i]).2,
        (bfs2 adj n (insert (minBySize size (bfs1 adj n {i} [i] []) i) st.vis)
          st.deps [minBySize size (bfs1 adj n {i} [i] []) i]).1,
        st.comps ++ [bfs1 adj n {i} [i] []]⟩ := by
  simp [buildStep, h]

theorem buildStep_inv (adj : Fin n → List (Fin n)) (size : Fin n → Nat)
    (hsym : SymmAdj adj) (st : BuildState n) (i : Fin n)
    (h : OuterInv adj size st) :
    OuterInv adj size (buildStep adj size st i) ∧
    i ∈ (buildStep adj size st i).vis ∧
    (∀ x ∈ st.vis, x ∈ (buildStep adj size st i).vis) := by
  obtain ⟨hclosed, hkeys, ⟨f, hf⟩, hrop, hrnone, hrvis, hlen, hzip⟩ := h
  by_cases hi : i ∈ st.vis
  · rw [buildStep_eq_of_mem adj size st i hi]
    exact ⟨⟨hclosed, hkeys, ⟨f, hf⟩, hrop, hrnone, hrvis, hlen, hzip⟩, hi,
      fun x hx => hx⟩
  · rw [buildStep_eq_of_not_mem adj size st i hi]
    have hnpos : 0 < n := i.pos
    -- the component enumeration
    have hcomp := bfs1_closure adj n {i} [i] []
      (by
        rw [Finset.card_singleton, List.length_singleton]
        omega)
      (by
        intro x
        simp)
      (by
        intro x hx
        rw [Finset.mem_singleton] at hx
        rw [hx]
        exact Or.inl (List.mem_singleton_self i))
    have hicomp : i ∈ bfs1 adj n {i} [i] [] :=
      hcomp.1 i (Finset.mem_singleton_self i)
    have hcompclosed := hcomp.2
    have hsound : ∀ x ∈ bfs1 adj n {i} [i] [], ReachAdj adj i x := by
      refine bfs1_pred adj (ReachAdj adj i) ?_ n {i} [i] [] ?_ ?_
      · intro a ha b hb
        exact Relation.ReflTransGen.tail ha hb
      · intro x hx
        rw [List.mem_singleton] at hx
        rw [hx]
        exact Relation.ReflTransGen.refl
      · intro x hx
        exact absurd hx (List.not_mem_nil x)
    have hdisj : ∀ x ∈ bfs1 adj n {i} [i] [], x ∉ st.vis := by
      intro x hx hxv
      exact hi (reachAdj_start_mem_of_closed adj hsym st.vis hclosed
        (hsound x hx) hxv)
    set r := minBySize size (bfs1 adj n {i} [i] []) i with hr
    have hrcomp : r ∈ bfs1 adj n {i} [i] [] :=
      minBySize_mem_of_ne_nil size _ i (List.ne_nil_of_mem hicomp)
    have hrmin : ∀ x ∈ bfs1 adj n {i} [i] [], size r ≤ size x :=
      minBySize_min_all size _ i
    have hrnotvis : r ∉ st.vis := hdisj r hrcomp
    have hdepsr : st.deps r = none := by
      cases hdr : st.deps r with
      | none => rfl
      | some p' =>
        exfalso
        exact hrnotvis (hkeys r p' hdr).1
    -- the parent-assigning BFS
    have hs2 := bfs2_spec adj n (insert r st.vis) st.deps [r] f (f r + 1)
      (by
        have h1 : 0 < (insert r st.vis).card :=
          Finset.card_pos.mpr ⟨r, Finset.mem_insert_self r st.vis⟩
        have h2 : (insert r st.vis).card ≤ n := by
          have := Finset.card_le_univ (insert r st.vis)
          rwa [Fintype.card_fin] at this
        rw [List.length_singleton]
        omega)
      (by
        intro x hx
        rw [List.mem_singleton] at hx
        rw [hx]
        exact Finset.mem_insert_self r st.vis)
      (by
        intro x hx
        rcases Finset.mem_insert.mp hx with h1 | h1
        · rw [h1]
          exact Or.inl (List.mem_singleton_self r)
        · refine Or.inr ?_
          intro b hb
          exact Finset.mem_insert_of_mem (hclosed x h1 b hb))
      (by
        intro c p' hc
        obtain ⟨h1, h2, h3⟩ := hkeys c p' hc
        exact ⟨Finset.mem_insert_of_mem h1, Finset.mem_insert_of_mem h2, h3⟩)
      hf
      (by
        intro x hx
        rw [List.mem_singleton] at hx
        rw [hx]
        omega)
    obtain ⟨o1, o2, o3, o4, o5, o6⟩ := hs2
    refine ⟨⟨o6, o3, o5, ?_, ?_, ?_, ?_, ?_⟩, ?_, ?_⟩
    · -- every visited frame is a root or has a parent entry
      dsimp only
      intro x hx
      rcases o4 x hx with h1 | h1
      · rcases Finset.mem_insert.mp h1 with h2 | h2
        · refine Or.inl ?_
          rw [h2]
          exact List.mem_append_right _ (List.mem_singleton_self r)
        · rcases hrop x h2 with h3 | h3
          · exact Or.inl (List.mem_append_left _ h3)
          · refine Or.inr ?_
            rw [o2 x (Finset.mem_insert_of_mem h2)]
            exact h3
      · exact Or.inr h1
    · -- roots have no parent entry
      dsimp only
      intro rt hrt
      rcases List.mem_append.mp hrt with h1 | h1
      · rw [o2 rt (Finset.mem_insert_of_mem (hrvis rt h1))]
        exact hrnone rt h1
      · rw [List.mem_singleton] at h1
        rw [h1, o2 r (Finset.mem_insert_self r st.vis)]
        exact hdepsr
    · -- roots are visited
      dsimp only
      intro rt hrt
      rcases List.mem_append.mp hrt with h1 | h1
      · exact o1 rt (Finset.mem_insert_of_mem (hrvis rt h1))
      · rw [List.mem_singleton] at h1
        rw [h1]
        exact o1 r (Finset.mem_insert_self r st.vis)
    · -- lengths stay aligned
      dsimp only
      rw [List.length_append, List.length_append, hlen]
      simp
    · -- each root is a member of its component of least size
      dsimp only
      intro pr hpr
      rw [List.zip_append hlen] at hpr
      rcases List.mem_append.mp hpr with h1 | h1
      · exact hzip pr h1
      · rw [show [r].zip [bfs1 adj n {i} [i] []] = [(r, bfs1 adj n {i} [i] [])]
            from rfl, List.mem_singleton] at h1
        rw [h1]
        exact ⟨hrcomp, hrmin⟩
    · -- the processed id is visited
      show i ∈ (bfs2 adj n (insert r st.vis) st.deps [r]).1
      refine reachAdj_mem_of_closed adj _ o6 (reachAdj_symm hsym (hsound r hrcomp))
        (o1 r (Finset.mem_insert_self r st.vis))
    · -- the visited set only grows
      dsimp only
      intro x hx
      exact o1 x (Finset.mem_insert_of_mem hx)

theorem buildFold_inv (adj : Fin n → List (Fin n)) (size : Fin n → Nat)
    (hsym : SymmAdj adj) :
    ∀ (L : List (Fin n)) (st : BuildState n), OuterInv adj size st →
      OuterInv adj size (L.foldl (buildStep adj size) st) ∧
      (∀ x ∈ st.vis, x ∈ (L.foldl (buildStep adj size) st).vis) ∧
      (∀ i ∈ L, i ∈ (L.foldl (buildStep adj size) st).vis) := by
  intro L
  induction L with
  | nil =>
    intro st hinv
    refine ⟨hinv, fun x hx => hx, ?_⟩
    intro i hi
    exact absurd hi (List.not_mem_nil i)
  | cons i L ih =>
    intro st hinv
    obtain ⟨hinv', hivis, hmono⟩ := buildStep_inv adj size hsym st i hinv
    obtain ⟨hinvr, hmonor, hcov⟩ := ih (buildStep adj size st i) hinv'
    refine ⟨hinvr, ?_, ?_⟩
    · intro x hx
      exact hmonor x (hmono x hx)
    · intro j hj
      rcases List.mem_cons.mp hj with h1 | h1
      · rw [h1]
        exact hmonor i hivis
      · exact hcov j h1

theorem buildDeps_inv (adj : Fin n → List (Fin n)) (size : Fin n → Nat)
    (hsym : SymmAdj adj) :
    OuterInv adj size (buildDeps adj size) ∧
    (∀ x : Fin n, x ∈ (buildDeps adj size).vis) := by
  have hinit : OuterInv adj size (⟨[], fun _ => none, ∅, []⟩ : BuildState n) := by
    refine ⟨?_, ?_, ⟨fun _ => 0, ?_⟩, ?_, ?_, ?_, rfl, ?_⟩
    · intro x hx
      exact absurd hx (Finset.not_mem_empty x)
    · intro c p' hc
      exact Option.noConfusion hc
    · intro c p' hc
      exact Option.noConfusion hc
    · intro x hx
      exact absurd hx (Finset.not_mem_empty x)
    · intro rt hrt
      exact absurd hrt (List.not_mem_nil rt)
    · intro rt hrt
      exact absurd hrt (List.not_mem_nil rt)
    · intro pr hpr
      exact absurd hpr (List.not_mem_nil pr)
  obtain ⟨hinv, _, hcov⟩ :=
    buildFold_inv adj size hsym (List.finRange n) ⟨[], fun _ => none, ∅, []⟩ hinit
  exact ⟨hinv, fun x => hcov x (List.mem_finRange x)⟩

/-! ### Ancestor chains in the dependency map -/

/-- One step up the dependency map (staying put at a frame with no entry). -/
def pstep (deps : Fin n → Option (Fin n)) (x : Fin n) : Fin n :=
  match deps x with
  | some p => p
  | none => x

/-- `k` steps up the dependency map. -/
def parentIter (deps : Fin n → Option (Fin n)) (k : Nat) (x : Fin n) : Fin n :=
  (pstep deps)^[k] x

theorem pstep_of_some (deps : Fin n → Option (Fin n)) (x p : Fin n)
    (h : deps x = some p) : pstep deps x = p := by
  unfold pstep
  rw [h]

/-- Along a dependency map admitting a strictly decreasing measure, every
frame reaches a parentless frame in fewer than `n` steps, visiting
pairwise distinct frames on the way. -/
theorem deps_chain (deps : Fin n → Option (Fin n)) (f : Fin n → Nat)
    (hdec : ∀ c p', deps c = some p' → f p' < f c) (x : Fin n) :
    ∃ k, k < n ∧ deps (parentIter deps k x) = none ∧
      ∀ i j, i < j → j ≤ k → parentIter deps i x ≠ parentIter deps j x := by
  have hterm : ∀ (m : Nat) (y : Fin n), f y ≤ m →
      ∃ k, deps (parentIter deps k y) = none := by
    intro m
    induction m with
    | zero =>
      intro y hy
      cases hd : deps y with
      | none => exact ⟨0, hd⟩
      | some p =>
        exfalso
        have := hdec y p hd
        omega
    | succ m ih =>
      intro y hy
      cases hd : deps y with
      | none => exact ⟨0, hd⟩
      | some p =>
        have hlt := hdec y p hd
        obtain ⟨k, hk⟩ := ih p (by omega)
        refine ⟨k + 1, ?_⟩
        unfold parentIter
        rw [Function.iterate_succ_apply, pstep_of_some deps y p hd]
        exact hk
  obtain ⟨k0, hk0⟩ := hterm (f x) x (le_refl _)
  have hex : ∃ k, deps (parentIter deps k x) = none := ⟨k0, hk0⟩
  classical
  set k := Nat.find hex with hkdef
  have hknone : deps (parentIter deps k x) = none := Nat.find_spec hex
  have hkmin : ∀ j, j < k → deps (parentIter deps j x) ≠ none :=
    fun j hj => Nat.find_min hex hj
  have hstep : ∀ j, j < k →
      f (parentIter deps (j+1) x) < f (parentIter deps j x) := by
    intro j hj
    cases hd : deps (parentIter deps j x) with
    | none => exact absurd hd (hkmin j hj)
    | some p =>
      have h1 : parentIter deps (j+1) x = p := by
        unfold parentIter
        rw [Function.iterate_succ_apply']
        exact pstep_of_some deps _ p hd
      rw [h1]
      exact hdec _ p hd
  have hmono : ∀ j, j ≤ k → ∀ i, i < j →
      f (parentIter deps j x) < f (parentIter deps i x) := by
    intro j
    induction j with
    | zero =>
      intro _ i hi
      omega
    | succ j ihj =>
      intro hjk i hi
      have hj1 : f (parentIter deps (j+1) x) < f (parentIter deps j x) :=
        hstep j (by omega)
      rcases Nat.lt_or_ge i j with h1 | h1
      · have := ihj (by omega) i h1
        omega
      · have : i = j := by omega
        rw [this]
        exact hj1
  have hne : ∀ i j, i < j → j ≤ k →
      parentIter deps i x ≠ parentIter deps j x := by
    intro i j hij hjk heq
    have := hmono j hjk i hij
    rw [heq] at this
    omega
  have hkn : k < n := by
    have hinj : Function.Injective
        (fun m : Fin (k+1) => parentIter deps m.1 x) := by
      intro a b hab
      have hab' : parentIter deps a.1 x = parentIter deps b.1 x := hab
      by_contra hne'
      rcases Nat.lt_or_ge a.1 b.1 with h1 | h1
      · exact hne a.1 b.1 h1 (Nat.lt_succ_iff.mp b.2) hab'
      · rcases Nat.lt_or_ge b.1 a.1 with h2 | h2
        · exact hne b.1 a.1 h2 (Nat.lt_succ_iff.mp a.2) hab'.symm
        · exact hne' (Fin.ext (by omega))
    have hcard := Fintype.card_le_of_injective _ hinj
    simp only [Fintype.card_fin] at hcard
    omega
  exact ⟨k, hkn, hknone, hne⟩

/-! ## The orchestrated pipeline -/

instance scoreDescTotal : IsTotal (ScoredPair n) (fun a b => b.1 ≤ a.1) :=
  ⟨fun a b => le_total b.1 a.1⟩

instance scoreDescTrans : IsTrans (ScoredPair n) (fun a b => b.1 ≤ a.1) :=
  ⟨fun _ _ _ h1 h2 => le_trans h2 h1⟩

theorem sortScores_sorted (l : List (ScoredPair n)) :
    List.Pairwise (fun a b : ScoredPair n => b.1 ≤ a.1) (sortScores l) :=
  List.sorted_insertionSort _ l

theorem sortScores_perm (l : List (ScoredPair n)) : List.Perm (sortScores l) l :=
  List.perm_insertionSort _ l

theorem mem_sortScores (l : List (ScoredPair n)) (e : ScoredPair n) :
    e ∈ sortScores l ↔ e ∈ l :=
  (sortScores_perm l).mem_iff

/-- Phase 1 aggregation: every completed pair whose score is not the
sentinel `-1` is appended to `all_scores`, in completion order. -/
def collectScores (pairs : List (Fin n × Fin n))
    (res : Fin n × Fin n → Int) : List (ScoredPair n) :=
  pairs.foldl
    (fun acc pr => if res pr ≠ -1 then acc ++ [((res pr).toNat, pr.1, pr.2)]
      else acc) []

theorem collectScores_from :
    ∀ (pairs : List (Fin n × Fin n)) (res : Fin n × Fin n → Int)
      (acc : List (ScoredPair n)) (e : ScoredPair n),
      e ∈ pairs.foldl
        (fun acc pr => if res pr ≠ -1 then acc ++ [((res pr).toNat, pr.1, pr.2)]
          else acc) acc →
      e ∈ acc ∨ ∃ pr ∈ pairs, e = ((res pr).toNat, pr.1, pr.2) ∧ res pr ≠ -1 := by
  intro pairs res
  induction pairs with
  | nil =>
    intro acc e he
    exact Or.inl he
  | cons pr pairs ih =>
    intro acc e he
    simp only [List.foldl_cons] at he
    by_cases hr : res pr ≠ -1
    · rw [if_pos hr] at he
      rcases ih _ e he with h | ⟨pr', hpr', hee⟩
      · rcases List.mem_append.mp h with h1 | h1
        · exact Or.inl h1
        · rw [List.mem_singleton] at h1
          exact Or.inr ⟨pr, List.mem_cons_self pr pairs, h1, hr⟩
      · exact Or.inr ⟨pr', List.mem_cons_of_mem pr hpr', hee⟩
    · rw [if_neg hr] at he
      rcases ih _ e he with h | ⟨pr', hpr', hee⟩
      · exact Or.inl h
      · exact Or.inr ⟨pr', List.mem_cons_of_mem pr hpr', hee⟩

/-- A sentinel-scored pair contributes no entry to `all_scores`. -/
theorem collectScores_sentinel (pairs : List (Fin n × Fin n))
    (res : Fin n × Fin n → Int) (pr : Fin n × Fin n) (hr : res pr = -1)
    (s : Nat) : (s, pr.1, pr.2) ∉ collectScores pairs res := by
  intro hmem
  rcases collectScores_from pairs res [] _ hmem with h | ⟨pr', _, hee, hr'⟩
  · exact absurd h (List.not_mem_nil _)
  · have h1 : pr'.1 = pr.1 := congrArg (fun t => t.2.1) hee.symm
    have h2 : pr'.2 = pr.2 := congrArg (fun t => t.2.2) hee.symm
    have : pr' = pr := Prod.ext h1 h2
    rw [this] at hr'
    exact hr' hr

/-- The invariant holds of the forest built from the sorted score list,
its accepted edges are drawn from the input entries, and every rejected
pair is dominated by the forest path between its endpoints. -/
theorem buildForest_spec (l : List (ScoredPair n)) :
    ForestInv (buildForest (sortScores l)) ∧
    (∀ e' ∈ (buildForest (sortScores l)).2.2, e' ∈ l) ∧
    (∀ e ∈ l, (∀ e' ∈ (buildForest (sortScores l)).2.2, ¬ samePair e e') →
      ∃ q : (forestGraph (buildForest (sortScores l)).2.2).Walk e.2.1 e.2.2,
        ∀ ed ∈ q.edges, ∃ e' ∈ (buildForest (sortScores l)).2.2,
          ed = s(e'.2.1, e'.2.2) ∧ e.1 ≤ e'.1) := by
  obtain ⟨hinv, _, hfrom, hdom⟩ := forest_fold_spec (sortScores l) (forestInit n)
    forestInit_inv
    (by
      intro e' he'
      exact absurd he' (List.not_mem_nil e'))
    (sortScores_sorted l)
  refine ⟨hinv, ?_, ?_⟩
  · intro e' he'
    rcases hfrom e' he' with h | h
    · exact absurd h (List.not_mem_nil e')
    · exact (mem_sortScores l e').mp h
  · intro e he hnot
    exact hdom e ((mem_sortScores l e).mpr he) hnot

/-- The adjacency map built by the forest loop is symmetric. -/
theorem buildForest_symmAdj (l : List (ScoredPair n)) :
    SymmAdj (buildForest (sortScores l)).2.1 := by
  obtain ⟨hinv, _, _⟩ := buildForest_spec l
  obtain ⟨_, _, _, _, hadj⟩ := hinv
  intro a b hab
  obtain ⟨e, he, hor⟩ := (hadj a b).mp hab
  exact (hadj b a).mpr ⟨e, he, hor.symm⟩

/-- The manifest contents `main` serializes, as a function of the
aggregated score list: the sorted root id list and the dependency map
(the id-to-path map is fixed by discovery and identical across runs). -/
def manifest (l : List (ScoredPair n)) (size : Fin n → Nat) :
    List (Fin n) × (Fin n → Option (Fin n)) :=
  (sortRoots (buildDeps (buildForest (sortScores l)).2.1 size).roots,
    (buildDeps (buildForest (sortScores l)).2.1 size).deps)

/-- A file reference of Phase 2: either a frame in the source input
directory or a frame in the temporary output directory. -/
inductive FileRef (n : Nat) where
  | src (id : Fin n)
  | out (id : Fin n)
  deriving DecidableEq

/-- The diff-encoding jobs Phase 2 submits: for every child in the
dependency map, read the child and its parent from the *source* directory
and write to the child's path in the output directory
(`process_image(input_dir / child, input_dir / parent, output_dir / child)`). -/
def phase2Jobs (deps : Fin n → Option (Fin n)) :
    List (FileRef n × FileRef n × FileRef n) :=
  (List.finRange n).filterMap
    (fun c => (deps c).map (fun p => (FileRef.src c, FileRef.src p, FileRef.out c)))

/-- The frames present in the output tree after Phase 2: every root
(copied verbatim) and every child whose `process_image` reported success. -/
def phase2Outputs (roots : List (Fin n)) (deps : Fin n → Option (Fin n))
    (ok : Fin n → Bool) : List (Fin n) :=
  roots ++ (List.finRange n).filter (fun c => (deps c).isSome && ok c)

/-- The observable outcome of a run of `main`. -/
inductive RunResult (n : Nat) where
  | aborted
  | completed (manifest : List (Fin n) × (Fin n → Option (Fin n)))
      (files : List (Fin n))

/-- The control flow of `main` after discovery: with fewer than two
frames the run returns before scoring, encoding, manifest writing or
archiving; otherwise both phases run and the archive is produced.  The
scoring results (`scores`, in completion order) and the per-child encode
outcomes (`ok`) parameterize the external world. -/
def mainRun (n : Nat) (scores : List (ScoredPair n)) (size : Fin n → Nat)
    (ok : Fin n → Bool) : RunResult n :=
  if n < 2 then RunResult.aborted
  else
    RunResult.completed (manifest scores size)
      (phase2Outputs (buildDeps (buildForest (sortScores scores)).2.1 size).roots
        (buildDeps (buildForest (sortScores scores)).2.1 size).deps ok)

/-! ### Determinism of the sort under pairwise distinct scores -/

/-- Two mutually permuted lists, both sorted descending by score, with
pairwise distinct scores, are equal. -/
theorem sorted_perm_eq_of_scores_nodup :
    ∀ (l1 l2 : List (ScoredPair n)), List.Perm l1 l2 →
      List.Pairwise (fun a b : ScoredPair n => b.1 ≤ a.1) l1 →
      List.Pairwise (fun a b : ScoredPair n => b.1 ≤ a.1) l2 →
      (l1.map (fun e => e.1)).Nodup →
      l1 = l2 := by
  intro l1
  induction l1 with
  | nil =>
    intro l2 hperm _ _ _
    exact (List.Perm.nil_eq hperm).symm.symm
  | cons a t1 ih =>
    intro l2 hperm hs1 hs2 hnd
    cases l2 with
    | nil => exact absurd hperm.symm (by simp)
    | cons b t2 =>
      have hab : a = b := by
        have hamem : a ∈ b :: t2 := hperm.mem_iff.mp (List.mem_cons_self a t1)
        rcases List.mem_cons.mp hamem with h1 | h1
        · exact h1
        · have hbmem : b ∈ a :: t1 := hperm.symm.mem_iff.mp (List.mem_cons_self b t2)
          rcases List.mem_cons.mp hbmem with h2 | h2
          · exact h2.symm
          · exfalso
            have hba : a.1 ≤ b.1 := (List.pairwise_cons.mp hs2).1 a h1
            have hab' : b.1 ≤ a.1 := (List.pairwise_cons.mp hs1).1 b h2
            have heq : b.1 = a.1 := le_antisymm hab' hba
            have hnd2 : (a.1 :: t1.map (fun e => e.1)).Nodup := by
              simpa only [List.map_cons] using hnd
            exact (List.nodup_cons.mp hnd2).1 (by
              rw [← heq]
              exact List.mem_map.mpr ⟨b, h2, rfl⟩)
      subst hab
      have hperm' : List.Perm t1 t2 := (List.perm_cons a).mp hperm
      have ht1 := (List.pairwise_cons.mp hs1).2
      have ht2 := (List.pairwise_cons.mp hs2).2
      have hnd2 : (a.1 :: t1.map (fun e => e.1)).Nodup := by
        simpa only [List.map_cons] using hnd
      rw [ih t2 hperm' ht1 ht2 (List.nodup_cons.mp hnd2).2]

/-- If the dependency map admits a strictly decreasing measure, no frame
with a parent entry lies on a parent cycle. -/
theorem deps_no_cycle (deps : Fin n → Option (Fin n)) (f : Fin n → Nat)
    (hdec : ∀ c p', deps c = some p' → f p' < f c) (x : Fin n) (k : Nat)
    (hk : 0 < k) (hcyc : parentIter deps k x = x) : deps x = none := by
  by_cases hstall : ∃ j, j < k ∧ deps (parentIter deps j x) = none
  · obtain ⟨j, hjk, hj⟩ := hstall
    have hstay : ∀ t, parentIter deps (j + t) x = parentIter deps j x := by
      intro t
      induction t with
      | zero => rfl
      | succ t iht =>
        have : j + (t + 1) = (j + t) + 1 := by omega
        rw [this]
        unfold parentIter
        rw [Function.iterate_succ_apply']
        show pstep deps (parentIter deps (j + t) x) = _
        rw [iht]
        unfold pstep
        rw [hj]
        rfl
    have hkx : parentIter deps k x = parentIter deps j x := by
      have : k = j + (k - j) := by omega
      rw [this, hstay (k - j)]
    rw [hcyc] at hkx
    rw [hkx]
    exact hj
  · push_neg at hstall
    have hdrop : ∀ j, j ≤ k → f (parentIter deps j x) + j ≤ f x := by
      intro j
      induction j with
      | zero =>
        intro _
        simp [parentIter]
      | succ j ihj =>
        intro hjk
        have hj := ihj (by omega)
        cases hd : deps (parentIter deps j x) with
        | none => exact absurd hd (hstall j (by omega))
        | some p =>
          have hlt := hdec _ p hd
          have hstep : parentIter deps (j+1) x = p := by
            unfold parentIter
            rw [Function.iterate_succ_apply']
            exact pstep_of_some deps _ p hd
          rw [hstep]
          omega
    have := hdrop k (le_refl k)
    rw [hcyc] at this
    omega

/-! ## The claims -/

/-- C1 (counterexample): the claim "the output's alpha is transparent
exactly at the pixels where the child's and parent's RGB values are equal
and opaque exactly where they differ in any channel" is false on the code:
for a 1×1 child `(0,0,1)` over parent `(0,0,0)` the per-channel difference
is nonzero, yet its luminance collapse truncates to `0`, so `process_image`
emits a transparent pixel where child ≠ parent. -/
theorem c1_counterexample :
    (process_image (fun (_ : Fin 1) (_ : Fin 1) => ((0, 0, 1) : RGB))
      (fun _ _ => ((0, 0, 0) : RGB)) 0 0).2 = 0 ∧
    (fun (_ : Fin 1) (_ : Fin 1) => ((0, 0, 1) : RGB)) 0 0 ≠
      (fun (_ : Fin 1) (_ : Fin 1) => ((0, 0, 0) : RGB)) 0 0 := by
  constructor
  · decide
  · decide

/-- C1 (amended): the diff-encoded output's alpha channel is opaque (255)
exactly where the ITU-R 601 luminance collapse of the per-channel absolute
difference is nonzero; every pixel where child equals parent is
transparent (though some differing pixels may also be transparent, when
their difference's luminance truncates to zero); and at every opaque pixel
the output's RGB is the child's, so source-over compositing atop the
parent reproduces the child exactly there. -/
theorem c1_diff_mask_spec (w h : Nat) (child base : Img RGB w h)
    (x : Fin w) (y : Fin h) :
    (child x y = base x y → (process_image child base x y).2 = 0) ∧
    ((process_image child base x y).2 ≠ 0 →
      (process_image child base x y).2 = 255 ∧
      compositeOver (process_image child base) base x y = child x y) ∧
    ((process_image child base x y).2 = 255 ↔
      0 < lumaOf (rgbDiff (child x y) (base x y))) := by
  refine ⟨?_, ?_, ?_⟩
  · intro heq
    show maskPix (child x y) (base x y) = 0
    rw [heq]
    exact maskPix_self (base x y)
  · intro hne
    have h255 : (process_image child base x y).2 = 255 := by
      rcases maskPix_eq_zero_or_255 (child x y) (base x y) with h | h
      · exact absurd h hne
      · exact h
    refine ⟨h255, ?_⟩
    unfold compositeOver
    rw [if_neg hne]
    rfl
  · show maskPix (child x y) (base x y) = 255 ↔ _
    unfold maskPix
    by_cases hl : 0 < lumaOf (rgbDiff (child x y) (base x y))
    · rw [if_pos hl]
      simp [hl]
    · rw [if_neg hl]
      simp [hl]

/-- C6: the similarity scorer returns
`total_pixels - count_of_nonzero_collapsed_diff_pixels` on comparable
images — equal to the number of pixels whose collapsed gray difference is
exactly zero, hence non-negative — returns the sentinel `-1` when loading
or comparison raises, and sentinel-scored pairs are excluded from
`all_scores` and contribute no edge to the forest. -/
theorem c6_scorer_spec :
    (∀ (w h : Nat) (i1 i2 : Img RGB w h),
      calculate_similarity_score (some (i1, i2))
          = (totalPixels w h : Int) - nonZeroPixels i1 i2 ∧
      calculate_similarity_score (some (i1, i2)) = (zeroPixels i1 i2 : Int) ∧
      0 ≤ calculate_similarity_score (some (i1, i2))) ∧
    (∀ (w h : Nat),
      calculate_similarity_score (none : Option (Img RGB w h × Img RGB w h)) = -1) ∧
    (∀ (n : Nat) (pairs : List (Fin n × Fin n)) (res : Fin n × Fin n → Int)
      (pr : Fin n × Fin n), res pr = -1 →
      ∀ s : Nat, (s, pr.1, pr.2) ∉ collectScores pairs res) ∧
    (∀ (n : Nat) (pairs : List (Fin n × Fin n)) (res : Fin n × Fin n → Int),
      ∀ e' ∈ (buildForest (sortScores (collectScores pairs res))).2.2,
        ∃ pr ∈ pairs, e' = ((res pr).toNat, pr.1, pr.2) ∧ res pr ≠ -1) := by
  refine ⟨?_, ?_, ?_, ?_⟩
  · intro w h i1 i2
    have hzero := zeroPixels_add_nonZeroPixels i1 i2
    have h1 : calculate_similarity_score (some (i1, i2))
        = (totalPixels w h : Int) - nonZeroPixels i1 i2 := rfl
    refine ⟨h1, ?_, ?_⟩
    · rw [h1]
      omega
    · rw [h1]
      have := nonZeroPixels_le_total i1 i2
      omega
  · intro w h
    rfl
  · intro n pairs res pr hr s
    exact collectScores_sentinel pairs res pr hr s
  · intro n pairs res e' he'
    obtain ⟨_, hfrom, _⟩ := buildForest_spec (collectScores pairs res)
    have h1 := hfrom e' he'
    rcases collectScores_from pairs res [] e' h1 with h | h
    · exact absurd h (List.not_mem_nil e')
    · exact h

/-- C7: every Phase 2 diff-encoding job reads both the child and its
parent from the source input directory — never from the freshly produced
output tree — and writes only the child's own output path, so the jobs'
read sets and disjoint write sets admit no ordering dependency between
child encodings. -/
theorem c7_jobs_read_source (n : Nat) (deps : Fin n → Option (Fin n)) :
    (∀ job ∈ phase2Jobs deps, ∃ c p, deps c = some p ∧
      job = (FileRef.src c, FileRef.src p, FileRef.out c)) ∧
    (∀ job ∈ phase2Jobs deps, ∀ q : Fin n, job.2.1 ≠ FileRef.out q) ∧
    (∀ j1 ∈ phase2Jobs deps, ∀ j2 ∈ phase2Jobs deps,
      j1.2.2 = j2.2.2 → j1 = j2) ∧
    (∀ j1 ∈ phase2Jobs deps, ∀ j2 ∈ phase2Jobs deps,
      j1.2.2 ≠ j2.1 ∧ j1.2.2 ≠ j2.2.1) := by
  have hshape : ∀ job ∈ phase2Jobs deps, ∃ c p, deps c = some p ∧
      job = (FileRef.src c, FileRef.src p, FileRef.out c) := by
    intro job hjob
    obtain ⟨c, _, hc⟩ := List.mem_filterMap.mp hjob
    cases hd : deps c with
    | none =>
      rw [hd] at hc
      exact absurd hc Option.noConfusion
    | some p =>
      rw [hd] at hc
      simp only [Option.map_some'] at hc
      injection hc with hc'
      exact ⟨c, p, hd, hc'.symm⟩
  refine ⟨hshape, ?_, ?_, ?_⟩
  · intro job hjob q
    obtain ⟨c, p, _, hj⟩ := hshape job hjob
    rw [hj]
    intro hcontra
    exact FileRef.noConfusion hcontra
  · intro j1 h1 j2 h2 heq
    obtain ⟨c1, p1, hd1, hj1⟩ := hshape j1 h1
    obtain ⟨c2, p2, hd2, hj2⟩ := hshape j2 h2
    rw [hj1, hj2] at heq ⊢
    simp only [] at heq
    have hcc : c1 = c2 := by
      have : FileRef.out (n := n) c1 = FileRef.out c2 := heq
      injection this
    subst hcc
    have hpp : p1 = p2 := by
      rw [hd1] at hd2
      injection hd2
    rw [hpp]
  · intro j1 h1 j2 h2
    obtain ⟨c1, p1, _, hj1⟩ := hshape j1 h1
    obtain ⟨c2, p2, _, hj2⟩ := hshape j2 h2
    rw [hj1, hj2]
    exact ⟨fun hcontra => FileRef.noConfusion hcontra,
      fun hcontra => FileRef.noConfusion hcontra⟩

/-- C8: with fewer than two usable frames discovered, `main` returns
before scoring, encoding, manifest writing or archiving, and no archive is
produced. -/
theorem c8_too_few_frames_aborts (n : Nat) (scores : List (ScoredPair n))
    (size : Fin n → Nat) (ok : Fin n → Bool) (h : n < 2) :
    mainRun n scores size ok = RunResult.aborted ∧
    ∀ m fs, mainRun n scores size ok ≠ RunResult.completed m fs := by
  constructor
  · unfold mainRun
    rw [if_pos h]
  · intro m fs
    unfold mainRun
    rw [if_pos h]
    exact RunResult.noConfusion

/-- C8 (witness): a one-frame run aborts with no archive. -/
theorem c8_witness :
    mainRun 1 [] (fun _ => 0) (fun _ => true) = RunResult.aborted ∧
    ∀ m fs, mainRun 1 [] (fun _ => 0) (fun _ => true) ≠ RunResult.completed m fs :=
  c8_too_few_frames_aborts 1 [] (fun _ => 0) (fun _ => true) (by decide)

/-- C9: a per-frame diff-encoding failure is caught at the frame boundary
and reported as `false` rather than propagated; the failing child is
omitted from the output tree while every other frame's presence is
unaffected, and the run still completes (producing the archive) whenever
it passed discovery. -/
theorem c9_per_frame_failure_skips :
    (∀ (w h : Nat) (loaded : Option (Img RGB w h × Img RGB w h)),
      (processImageOk loaded = false ↔ loaded = none)) ∧
    (∀ (n : Nat) (roots : List (Fin n)) (deps : Fin n → Option (Fin n))
      (ok : Fin n → Bool) (c p : Fin n), deps c = some p → ok c = false →
      c ∉ roots → c ∉ phase2Outputs roots deps ok) ∧
    (∀ (n : Nat) (roots : List (Fin n)) (deps : Fin n → Option (Fin n))
      (ok : Fin n → Bool) (c p : Fin n), deps c = some p → ok c = true →
      c ∈ phase2Outputs roots deps ok) ∧
    (∀ (n : Nat) (roots : List (Fin n)) (deps : Fin n → Option (Fin n))
      (ok1 ok2 : Fin n → Bool) (c : Fin n), ok1 c = ok2 c →
      (c ∈ phase2Outputs roots deps ok1 ↔ c ∈ phase2Outputs roots deps ok2)) ∧
    (∀ (n : Nat) (scores : List (ScoredPair n)) (size : Fin n → Nat)
      (ok : Fin n → Bool), 2 ≤ n →
      ∃ m fs, mainRun n scores size ok = RunResult.completed m fs) := by
  refine ⟨?_, ?_, ?_, ?_, ?_⟩
  · intro w h loaded
    cases loaded with
    | none => simp [processImageOk, processImageRun]
    | some pr => simp [processImageOk, processImageRun]
  · intro n roots deps ok c p hdep hok hroot hmem
    rcases List.mem_append.mp hmem with h | h
    · exact hroot h
    · have := List.of_mem_filter h
      rw [hok] at this
      simp at this
  · intro n roots deps ok c p hdep hok
    apply List.mem_append_right
    apply List.mem_filter.mpr
    refine ⟨List.mem_finRange c, ?_⟩
    rw [hdep, hok]
    rfl
  · intro n roots deps ok1 ok2 c hc
    unfold phase2Outputs
    constructor
    · intro hmem
      rcases List.mem_append.mp hmem with h | h
      · exact List.mem_append_left _ h
      · apply List.mem_append_right
        apply List.mem_filter.mpr
        refine ⟨List.mem_finRange c, ?_⟩
        have := List.of_mem_filter h
        rwa [hc] at this
    · intro hmem
      rcases List.mem_append.mp hmem with h | h
      · exact List.mem_append_left _ h
      · apply List.mem_append_right
        apply List.mem_filter.mpr
        refine ⟨List.mem_finRange c, ?_⟩
        have := List.of_mem_filter h
        rwa [← hc] at this
  · intro n scores size ok hn
    refine ⟨manifest scores size,
      phase2Outputs (buildDeps (buildForest (sortScores scores)).2.1 size).roots
        (buildDeps (buildForest (sortScores scores)).2.1 size).deps ok, ?_⟩
    unfold mainRun
    rw [if_neg (by omega)]

/-- C10 (counterexample): the claim that a `union` returning `false`
changes nothing is false at the parent-map level: over four items, after
`union(1,0)`, `union(3,2)`, `union(1,3)`, the call `union(2,0)` returns
`false` (the representatives already agree) yet rewrites `parent[2]` from
`3` to `1` by path compression inside its `find`s. -/
theorem c10_counterexample :
    (((runOps (DSU.init 4) [DSUOp.doUnion 1 0, DSUOp.doUnion 3 2,
        DSUOp.doUnion 1 3]).union 2 0).2 = false) ∧
    ((runOps (DSU.init 4) [DSUOp.doUnion 1 0, DSUOp.doUnion 3 2,
        DSUOp.doUnion 1 3]).union 2 0).1.parent ≠
      (runOps (DSU.init 4) [DSUOp.doUnion 1 0, DSUOp.doUnion 3 2,
        DSUOp.doUnion 1 3]).parent := by
  constructor
  · decide
  · decide

/-- C10 (amended): starting from the initial state, after any sequence of
`find` and `union` calls the parent map contains no cycle besides
self-loops at representatives; `find` always terminates at a fixed point
of the parent map and leaves every item's representative unchanged;
`union(x, y)` returns `true` exactly when the representatives differed,
and then makes them coincide; when it returns `false` it leaves every
item's representative (and hence the partition) unchanged, though path
compression during its internal `find`s may rewrite parent pointers to
representatives. -/
theorem c10_dsu_spec (n : Nat) (ops : List (DSUOp n)) :
    Wf (runOps (DSU.init n) ops).parent ∧
    (∀ (x : Fin n) (k : Nat), 0 < k →
      (runOps (DSU.init n) ops).parent^[k] x = x →
      (runOps (DSU.init n) ops).parent x = x) ∧
    (∀ x : Fin n, ((runOps (DSU.init n) ops).find x).2
        = rootOf (runOps (DSU.init n) ops).parent x ∧
      isRoot (runOps (DSU.init n) ops).parent
        ((runOps (DSU.init n) ops).find x).2 ∧
      (∀ z : Fin n, rootOf ((runOps (DSU.init n) ops).find x).1.parent z
        = rootOf (runOps (DSU.init n) ops).parent z)) ∧
    (∀ x y : Fin n,
      (((runOps (DSU.init n) ops).union x y).2 = true ↔
        rootOf (runOps (DSU.init n) ops).parent x
          ≠ rootOf (runOps (DSU.init n) ops).parent y) ∧
      (((runOps (DSU.init n) ops).union x y).2 = true →
        rootOf ((runOps (DSU.init n) ops).union x y).1.parent x
          = rootOf ((runOps (DSU.init n) ops).union x y).1.parent y) ∧
      (((runOps (DSU.init n) ops).union x y).2 = false →
        ∀ z : Fin n, rootOf ((runOps (DSU.init n) ops).union x y).1.parent z
          = rootOf (runOps (DSU.init n) ops).parent z)) := by
  have hwf : Wf (runOps (DSU.init n) ops).parent := runOps_wf ops _ init_wf
  refine ⟨hwf, ?_, ?_, ?_⟩
  · intro x k hk hcyc
    exact no_nontrivial_cycle hwf x k hk hcyc
  · intro x
    refine ⟨find_root_eq _ hwf x, ?_, find_rootOf_eq _ hwf x⟩
    rw [find_root_eq _ hwf x]
    exact isRoot_rootOf hwf x
  · intro x y
    refine ⟨union_true_iff _ hwf x y, ?_, union_false_rootOf _ hwf x y⟩
    intro htrue
    have hne := (union_true_iff _ hwf x y).mp htrue
    rw [union_true_rootOf _ hwf x y htrue x, union_true_rootOf _ hwf x y htrue y]
    rw [if_neg hne, if_pos rfl]

/-- C4 (counterexample): the pipeline's manifest is not independent of the
completion order of equally scored pairs: with three frames of equal size
whose three pairs all score `4`, two aggregation orders that are
permutations of each other produce different dependency maps (parent of
frame `2` is `0` in one run and `1` in the other), so the manifests are
not byte-identical.  The score sort orders by score only, so ties keep
completion order. -/
theorem c4_counterexample :
    List.Perm [((4:Nat), (0:Fin 3), (1:Fin 3)), (4, 0, 2), (4, 1, 2)]
      [((4:Nat), (1:Fin 3), (2:Fin 3)), (4, 0, 1), (4, 0, 2)] ∧
    manifest [((4:Nat), (0:Fin 3), (1:Fin 3)), (4, 0, 2), (4, 1, 2)] (fun _ => 1)
      ≠ manifest [((4:Nat), (1:Fin 3), (2:Fin 3)), (4, 0, 1), (4, 0, 2)]
        (fun _ => 1) := by
  constructor
  · decide
  · decide

/-- C4 (amended): the manifest is a deterministic function of the sequence
of aggregated pair scores; when all aggregated scores are pairwise
distinct, the stable sort cancels the completion order and any two runs
(i.e. any two permutations of the aggregated list) produce identical
manifests.  With score ties, the stable score-only sort preserves
aggregation order, so manifests can differ across runs. -/
theorem c4_manifest_deterministic (n : Nat) (l1 l2 : List (ScoredPair n))
    (size : Fin n → Nat) (hperm : List.Perm l1 l2)
    (hnodup : (l1.map (fun e => e.1)).Nodup) :
    manifest l1 size = manifest l2 size := by
  have hsorteq : sortScores l1 = sortScores l2 := by
    apply sorted_perm_eq_of_scores_nodup
    · exact (sortScores_perm l1).trans (hperm.trans (sortScores_perm l2).symm)
    · exact sortScores_sorted l1
    · exact sortScores_sorted l2
    · exact ((sortScores_perm l1).map (fun e => e.1)).nodup_iff.mpr hnodup
  unfold manifest
  rw [hsorteq]

/-- C4 (witness): two distinct-score runs agree. -/
theorem c4_witness :
    manifest [((5:Nat), (0:Fin 3), (1:Fin 3)), (4, 0, 2)] (fun _ => 1)
      = manifest [((4:Nat), (0:Fin 3), (2:Fin 3)), (5, 0, 1)] (fun _ => 1) :=
  c4_manifest_deterministic 3
    [((5:Nat), (0:Fin 3), (1:Fin 3)), (4, 0, 2)]
    [((4:Nat), (0:Fin 3), (2:Fin 3)), (5, 0, 1)]
    (fun _ => 1) (by decide) (by decide)

/-- C5 (counterexample): the root tie-break is not "smallest frame id":
with scores `(10, 0, 2)`, `(9, 0, 1)` and sizes `5, 3, 3`, the component
enumeration from frame `0` is `[0, 2, 1]`, and Python's `min` keeps the
first minimizer in that order, so the chosen root is frame `2` even though
frame `1` has the same (minimal) size and a smaller id. -/
theorem c5_counterexample :
    (buildDeps (buildForest (sortScores
        [((10:Nat), (0:Fin 3), (2:Fin 3)), (9, 0, 1)])).2.1
      (fun i => if i = 0 then 5 else 3)).roots = [2] ∧
    (if (1:Fin 3) = 0 then (5:Nat) else 3) = (if (2:Fin 3) = 0 then (5:Nat) else 3) ∧
    (1 : Fin 3) < 2 := by
  refine ⟨by decide, by decide, by decide⟩

/-- C5 (amended): for every connected component, the chosen root is a
member of the component's breadth-first enumeration with the smallest
on-disk byte size, with ties broken by the earliest position in that
enumeration (Python's `min` keeps the first minimizer), not by smallest
frame id; consequently no non-root frame in a component has a strictly
smaller on-disk size than its component's root. -/
theorem c5_root_minimal (n : Nat) (scores : List (ScoredPair n))
    (size : Fin n → Nat) :
    (buildDeps (buildForest (sortScores scores)).2.1 size).roots.length
      = (buildDeps (buildForest (sortScores scores)).2.1 size).comps.length ∧
    ∀ pr ∈ (buildDeps (buildForest (sortScores scores)).2.1 size).roots.zip
        (buildDeps (buildForest (sortScores scores)).2.1 size).comps,
      pr.1 ∈ pr.2 ∧ ∀ x ∈ pr.2, size pr.1 ≤ size x := by
  obtain ⟨hinv, _⟩ := buildDeps_inv _ size (buildForest_symmAdj scores)
  exact ⟨hinv.2.2.2.2.2.2.1, hinv.2.2.2.2.2.2.2⟩

/-- C2: for every frame set (of size at least two) the dependency map and
root set form a forest of out-trees: every frame is a root or has exactly
one parent entry (the map is single-valued by construction); roots have no
entry; a measure strictly decreases along every parent link (the BFS
discovery stamp — parents are discovered before their children), so there
are no cycles and no frame is its own ancestor; and every frame reaches a
root through a chain of fewer than `n` parent links with no repeated
frame. -/
theorem c2_dependency_forest (n : Nat) (hn : 2 ≤ n)
    (scores : List (ScoredPair n)) (size : Fin n → Nat) :
    (∀ x : Fin n,
      x ∈ (buildDeps (buildForest (sortScores scores)).2.1 size).roots ∨
      (buildDeps (buildForest (sortScores scores)).2.1 size).deps x ≠ none) ∧
    (∀ rt ∈ (buildDeps (buildForest (sortScores scores)).2.1 size).roots,
      (buildDeps (buildForest (sortScores scores)).2.1 size).deps rt = none) ∧
    (∃ f : Fin n → Nat, ∀ c p,
      (buildDeps (buildForest (sortScores scores)).2.1 size).deps c = some p →
        f p < f c) ∧
    (∀ (x : Fin n) (k : Nat), 0 < k →
      parentIter (buildDeps (buildForest (sortScores scores)).2.1 size).deps k x = x →
      (buildDeps (buildForest (sortScores scores)).2.1 size).deps x = none) ∧
    (∀ x : Fin n, ∃ k, k < n ∧
      (buildDeps (buildForest (sortScores scores)).2.1 size).deps
        (parentIter (buildDeps (buildForest (sortScores scores)).2.1 size).deps k x)
        = none ∧
      parentIter (buildDeps (buildForest (sortScores scores)).2.1 size).deps k x
        ∈ (buildDeps (buildForest (sortScores scores)).2.1 size).roots ∧
      ∀ i j, i < j → j ≤ k →
        parentIter (buildDeps (buildForest (sortScores scores)).2.1 size).deps i x
          ≠ parentIter (buildDeps (buildForest (sortScores scores)).2.1 size).deps j x) := by
  obtain ⟨hinv, hcov⟩ := buildDeps_inv _ size (buildForest_symmAdj scores)
  obtain ⟨_hclosed, _hkeys, ⟨f, hf⟩, hrop, hrnone, _hrvis, _hlen, _hzip⟩ := hinv
  have hall : ∀ x : Fin n,
      x ∈ (buildDeps (buildForest (sortScores scores)).2.1 size).roots ∨
      (buildDeps (buildForest (sortScores scores)).2.1 size).deps x ≠ none :=
    fun x => hrop x (hcov x)
  refine ⟨hall, hrnone, ⟨f, hf⟩, ?_, ?_⟩
  · intro x k hk hcyc
    exact deps_no_cycle _ f hf x k hk hcyc
  · intro x
    obtain ⟨k, hkn, hknone, hdist⟩ := deps_chain _ f hf x
    refine ⟨k, hkn, hknone, ?_, hdist⟩
    rcases hall (parentIter (buildDeps (buildForest (sortScores scores)).2.1 size).deps k x)
      with h | h
    · exact h
    · exact absurd hknone h

/-- C2 (witness): the forest shape at a concrete three-frame run. -/
theorem c2_witness :
    (∀ x : Fin 3,
      x ∈ (buildDeps (buildForest (sortScores
          [((10:Nat), (0:Fin 3), (2:Fin 3)), (9, 0, 1)])).2.1
        (fun _ => 1)).roots ∨
      (buildDeps (buildForest (sortScores
          [((10:Nat), (0:Fin 3), (2:Fin 3)), (9, 0, 1)])).2.1
        (fun _ => 1)).deps x ≠ none) ∧
    (∀ rt ∈ (buildDeps (buildForest (sortScores
        [((10:Nat), (0:Fin 3), (2:Fin 3)), (9, 0, 1)])).2.1
      (fun _ => 1)).roots,
      (buildDeps (buildForest (sortScores
          [((10:Nat), (0:Fin 3), (2:Fin 3)), (9, 0, 1)])).2.1
        (fun _ => 1)).deps rt = none) ∧
    (∃ f : Fin 3 → Nat, ∀ c p,
      (buildDeps (buildForest (sortScores
          [((10:Nat), (0:Fin 3), (2:Fin 3)), (9, 0, 1)])).2.1
        (fun _ => 1)).deps c = some p → f p < f c) ∧
    (∀ (x : Fin 3) (k : Nat), 0 < k →
      parentIter (buildDeps (buildForest (sortScores
          [((10:Nat), (0:Fin 3), (2:Fin 3)), (9, 0, 1)])).2.1
        (fun _ => 1)).deps k x = x →
      (buildDeps (buildForest (sortScores
          [((10:Nat), (0:Fin 3), (2:Fin 3)), (9, 0, 1)])).2.1
        (fun _ => 1)).deps x = none) ∧
    (∀ x : Fin 3, ∃ k, k < 3 ∧
      (buildDeps (buildForest (sortScores
          [((10:Nat), (0:Fin 3), (2:Fin 3)), (9, 0, 1)])).2.1
        (fun _ => 1)).deps
        (parentIter (buildDeps (buildForest (sortScores
            [((10:Nat), (0:Fin 3), (2:Fin 3)), (9, 0, 1)])).2.1
          (fun _ => 1)).deps k x) = none ∧
      parentIter (buildDeps (buildForest (sortScores
          [((10:Nat), (0:Fin 3), (2:Fin 3)), (9, 0, 1)])).2.1
        (fun _ => 1)).deps k x
        ∈ (buildDeps (buildForest (sortScores
            [((10:Nat), (0:Fin 3), (2:Fin 3)), (9, 0, 1)])).2.1
          (fun _ => 1)).roots ∧
      ∀ i j, i < j → j ≤ k →
        parentIter (buildDeps (buildForest (sortScores
            [((10:Nat), (0:Fin 3), (2:Fin 3)), (9, 0, 1)])).2.1
          (fun _ => 1)).deps i x
          ≠ parentIter (buildDeps (buildForest (sortScores
              [((10:Nat), (0:Fin 3), (2:Fin 3)), (9, 0, 1)])).2.1
            (fun _ => 1)).deps j x) :=
  c2_dependency_forest 3 (by decide)
    [((10:Nat), (0:Fin 3), (2:Fin 3)), (9, 0, 1)] (fun _ => 1)

/-- C3: processing the valid pair scores in descending order and recording
an edge exactly when `union` succeeds yields an acyclic graph with exactly
`n - numRoots` edges, whose connectivity relation is exactly the DSU
partition (`numRoots` counts the connected components); and for every
scored pair whose id pair is not a forest edge but whose endpoints are
connected, every edge on the (unique) forest path between its endpoints
carries a score at least as large as the pair's own score — the classic
maximum-weight spanning forest guarantee. -/
theorem c3_maximum_spanning_forest (n : Nat) (scores : List (ScoredPair n)) :
    (forestGraph (buildForest (sortScores scores)).2.2).IsAcyclic ∧
    (buildForest (sortScores scores)).2.2.length
        + numRoots (buildForest (sortScores scores)).1.parent = n ∧
    (∀ a b : Fin n, rootOf (buildForest (sortScores scores)).1.parent a
        = rootOf (buildForest (sortScores scores)).1.parent b ↔
      (forestGraph (buildForest (sortScores scores)).2.2).Reachable a b) ∧
    (∀ e ∈ scores,
      (∀ e' ∈ (buildForest (sortScores scores)).2.2, ¬ samePair e e') →
      (forestGraph (buildForest (sortScores scores)).2.2).Reachable e.2.1 e.2.2 →
      ∀ p : (forestGraph (buildForest (sortScores scores)).2.2).Path e.2.1 e.2.2,
        ∀ ed ∈ (p : (forestGraph (buildForest (sortScores scores)).2.2).Walk
            e.2.1 e.2.2).edges,
          ∃ e' ∈ (buildForest (sortScores scores)).2.2,
            ed = s(e'.2.1, e'.2.2) ∧ e.1 ≤ e'.1) := by
  obtain ⟨hinv, _hfrom, hdom⟩ := buildForest_spec scores
  obtain ⟨_hwf, hiff, hacyc, hcount, _hadj⟩ := hinv
  refine ⟨hacyc, hcount, hiff, ?_⟩
  intro e he hnot _hreach p ed hed
  obtain ⟨q, hq⟩ := hdom e he hnot
  have hpq : p = q.toPath := hacyc.path_unique p q.toPath
  have hsub := q.edges_toPath_subset
  rw [hpq] at hed
  exact hq ed (hsub hed)

end DeltaImage
